import Mathlib

/-!
Shallow embedding of the WowTalentComparer core (talent-string decoding,
build diffing, overlapping-node resolution, hero-tree component analysis),
with theorems checking the natural-language specification against it.

Sources embedded:
- src/src/lib/talentParser.ts   (decodeBase64, BitReader, parseTalentString)
- src/src/lib/talentDiff.ts     (diffTalentBuilds, getChangeDetails)
- src/src/lib/nodeFiltering.ts  (deduplicateOverlappingNodes)
- src/src/components/TalentTreeView.tsx (connected components / hero tree
  selection inside the TalentTreeView memo)
-/

set_option maxHeartbeats 1000000

/-- Error kinds thrown by the core.  The JS code throws `Error` objects whose
message strings embed the data carried here as constructor arguments
(`Invalid character in talent string: {c}`,
`Talent string too short - got {n} bytes, expected at least 19`,
`Cannot compare different specs: {a} vs {b}`). -/
inductive TalentError where
  | invalidCharacter (c : Char)
  | tooShort (got : Nat)
  | specMismatch (a b : String)
deriving Repr, DecidableEq

/-- The characters matched by the JavaScript regex `\s` (used by
`input.replace(/\s/g, '')`) and stripped by `String.prototype.trim`. -/
def jsWhitespace (c : Char) : Bool :=
  let n := c.toNat
  n = 0x20 || n = 0x09 || n = 0x0a || n = 0x0b || n = 0x0c || n = 0x0d ||
  n = 0xa0 || n = 0x1680 || (0x2000 ≤ n && n ≤ 0x200a) ||
  n = 0x2028 || n = 0x2029 || n = 0x202f || n = 0x205f ||
  n = 0x3000 || n = 0xfeff

/-- `String.prototype.trim` on a character list. -/
def jsTrim (s : List Char) : List Char :=
  ((s.dropWhile jsWhitespace).reverse.dropWhile jsWhitespace).reverse

/-- The fixed 64-symbol alphabet of `decodeBase64`. -/
def base64Alphabet : List Char :=
  "ABCDEFGHIJKLMNOPQRSTUVWXYZabcdefghijklmnopqrstuvwxyz0123456789+/".data

/-- The reverse lookup table built by `decodeBase64`: a character maps to its
index in the alphabet, or nothing when it is not an alphabet symbol. -/
def base64Lookup (c : Char) : Option Nat :=
  base64Alphabet.findIdx? (fun a => a = c)

/-- State of the 6-bit-to-byte packing loop in `decodeBase64`. -/
structure DecodeState where
  output : List Nat
  bitBuffer : Nat
  bitsInBuffer : Nat
deriving Repr, DecidableEq

/-- The inner `while (bitsInBuffer >= 8 && outputIndex < outputLength)` loop of
`decodeBase64`: emit `bitBuffer & 0xff`, shift the buffer right by 8. -/
def drainBytes (outputLength : Nat) (st : DecodeState) : DecodeState :=
  if 8 ≤ st.bitsInBuffer ∧ st.output.length < outputLength then
    drainBytes outputLength
      ⟨st.output ++ [st.bitBuffer &&& 0xff], st.bitBuffer >>> 8, st.bitsInBuffer - 8⟩
  else st
termination_by st.bitsInBuffer
decreasing_by omega

/-- The `for (const char of cleanInput)` loop of `decodeBase64`: look each
character up, `bitBuffer |= value << bitsInBuffer`, add 6 bits, drain. -/
def decodeLoop (outputLength : Nat) : List Char → DecodeState → Except TalentError DecodeState
  | [], st => .ok st
  | c :: cs, st =>
    match base64Lookup c with
    | none => .error (.invalidCharacter c)
    | some v =>
      decodeLoop outputLength cs
        (drainBytes outputLength
          ⟨st.output, st.bitBuffer ||| (v <<< st.bitsInBuffer), st.bitsInBuffer + 6⟩)

/-- `decodeBase64` from talentParser.ts.  The `Uint8Array(outputLength)` is
zero-initialised, so unwritten trailing slots read back as 0. -/
def decodeBase64 (input : List Char) : Except TalentError (List Nat) :=
  let cleanInput := input.filter (fun c => !jsWhitespace c)
  let outputLength := cleanInput.length * 6 / 8
  match decodeLoop outputLength cleanInput ⟨[], 0, 0⟩ with
  | .error e => .error e
  | .ok st => .ok (st.output ++ List.replicate (outputLength - st.output.length) 0)

/-- The `BitReader` class: a byte buffer plus a bit cursor. -/
structure BitReader where
  data : List Nat
  bitPosition : Nat
deriving Repr, DecidableEq

/-- The `for (let i = 0; i < numBits; i++)` body of `BitReader.readBits`:
`k` is the number of iterations left, `i` the loop index, `result` the
accumulator.  When the byte index runs past the buffer the partial result is
returned and the cursor stops advancing. -/
def readBitsGo : Nat → Nat → Nat → BitReader → Nat × BitReader
  | 0, _, result, r => (result, r)
  | k + 1, i, result, r =>
    if h : r.bitPosition / 8 < r.data.length then
      readBitsGo k (i + 1)
        (result ||| (((r.data[r.bitPosition / 8] >>> (r.bitPosition % 8)) &&& 1) <<< i))
        ⟨r.data, r.bitPosition + 1⟩
    else (result, r)

/-- `BitReader.readBits`. -/
def BitReader.readBits (r : BitReader) (numBits : Nat) : Nat × BitReader :=
  readBitsGo numBits 0 0 r

/-- `BitReader.readBit`. -/
def BitReader.readBit (r : BitReader) : Bool × BitReader :=
  let p := r.readBits 1
  (p.1 == 1, p.2)

/-- `BitReader.bitsRemaining`. -/
def BitReader.bitsRemaining (r : BitReader) : Nat :=
  r.data.length * 8 - r.bitPosition

theorem readBitsGo_data (k i res : Nat) (r : BitReader) :
    (readBitsGo k i res r).2.data = r.data := by
  induction k generalizing i res r with
  | zero => rfl
  | succ k ih =>
    unfold readBitsGo
    split
    · exact ih _ _ _
    · rfl

theorem readBitsGo_pos_mono (k i res : Nat) (r : BitReader) :
    r.bitPosition ≤ (readBitsGo k i res r).2.bitPosition := by
  induction k generalizing i res r with
  | zero => exact Nat.le_refl _
  | succ k ih =>
    unfold readBitsGo
    split
    · exact Nat.le_trans (Nat.le_succ _) (ih _ _ ⟨r.data, r.bitPosition + 1⟩)
    · exact Nat.le_refl _

theorem readBitsGo_pos_le (k i res : Nat) (r : BitReader)
    (h : r.bitPosition ≤ 8 * r.data.length) :
    (readBitsGo k i res r).2.bitPosition ≤ 8 * r.data.length := by
  induction k generalizing i res r with
  | zero => exact h
  | succ k ih =>
    unfold readBitsGo
    split
    · next hlt =>
      have : r.bitPosition < 8 * r.data.length := by
        have := (Nat.div_lt_iff_lt_mul (by omega : 0 < 8)).1 hlt
        omega
      exact ih _ _ ⟨r.data, r.bitPosition + 1⟩ (by simpa using this)
    · exact h

theorem readBits_one_snd (r : BitReader) (h : r.bitPosition < 8 * r.data.length) :
    (r.readBits 1).2 = ⟨r.data, r.bitPosition + 1⟩ := by
  have h8 : r.bitPosition / 8 < r.data.length :=
    (Nat.div_lt_iff_lt_mul (by omega : 0 < 8)).2 (by omega)
  unfold BitReader.readBits readBitsGo
  simp [h8, readBitsGo]

/-- The second read onwards inside a node keeps the cursor between one past the
starting position and the end of the buffer, without touching the data. -/
def StepOk (r0 r1 : BitReader) : Prop :=
  r1.data = r0.data ∧ r0.bitPosition + 1 ≤ r1.bitPosition ∧
    r1.bitPosition ≤ 8 * r0.data.length

theorem StepOk.read {r0 r1 : BitReader} (h : StepOk r0 r1) (n : Nat) :
    StepOk r0 (r1.readBits n).2 := by
  obtain ⟨hd, h1, h2⟩ := h
  refine ⟨?_, ?_, ?_⟩
  · show (readBitsGo n 0 0 r1).2.data = r0.data
    rw [readBitsGo_data, hd]
  · exact Nat.le_trans h1 (readBitsGo_pos_mono _ _ _ _)
  · have := readBitsGo_pos_le n 0 0 r1 (by rw [hd]; exact h2)
    rw [hd] at this
    exact this

theorem StepOk.readBit {r0 r1 : BitReader} (h : StepOk r0 r1) :
    StepOk r0 (r1.readBit).2 :=
  h.read 1

theorem StepOk_first (r : BitReader) (h : r.bitPosition < 8 * r.data.length) :
    StepOk r (r.readBit).2 := by
  show StepOk r (r.readBits 1).2
  rw [readBits_one_snd r h]
  exact ⟨rfl, Nat.le_refl _, show r.bitPosition + 1 ≤ 8 * r.data.length by omega⟩

/-- One talent node's worth of bit reads (the body of the node loop in
`parseTalentString`). -/
structure TalentNodeSelection where
  nodeIndex : Nat
  isSelected : Bool
  isPurchased : Option Bool
  isPartiallyRanked : Option Bool
  ranksPurchased : Option Nat
  isChoiceNode : Option Bool
  choiceEntryIndex : Option Nat
deriving Repr, DecidableEq

/-- The body of `while (reader.bitsRemaining >= 1)` in `parseTalentString`:
reads one node's flags and fields in source order. -/
def parseNode (r : BitReader) (nodeIndex : Nat) : TalentNodeSelection × BitReader :=
  let s := r.readBit
  if s.1 then
    let p := s.2.readBit
    if p.1 then
      let pr := p.2.readBit
      if pr.1 then
        let rk := pr.2.readBits 6
        let ch := rk.2.readBit
        if ch.1 then
          let ce := ch.2.readBits 2
          (⟨nodeIndex, true, some true, some true, some rk.1, some true, some ce.1⟩, ce.2)
        else
          (⟨nodeIndex, true, some true, some true, some rk.1, some false, none⟩, ch.2)
      else
        let ch := pr.2.readBit
        if ch.1 then
          let ce := ch.2.readBits 2
          (⟨nodeIndex, true, some true, some false, none, some true, some ce.1⟩, ce.2)
        else
          (⟨nodeIndex, true, some true, some false, none, some false, none⟩, ch.2)
    else
      (⟨nodeIndex, true, some false, none, none, none, none⟩, p.2)
  else
    (⟨nodeIndex, false, none, none, none, none, none⟩, s.2)

theorem parseNode_step (r : BitReader) (idx : Nat)
    (h : r.bitPosition < 8 * r.data.length) :
    StepOk r (parseNode r idx).2 := by
  have base := StepOk_first r h
  unfold parseNode
  rcases hs : r.readBit with ⟨sb, s2⟩
  rw [hs] at base
  dsimp only
  cases sb
  · simpa using base
  · simp only [if_pos rfl]
    have hp2 := base.readBit
    rcases hp : s2.readBit with ⟨pb, p2⟩
    rw [hp] at hp2
    dsimp only at hp2 ⊢
    cases pb
    · simpa using hp2
    · simp only [if_pos rfl]
      have hpr2 := hp2.readBit
      rcases hpr : p2.readBit with ⟨prb, pr2⟩
      rw [hpr] at hpr2
      dsimp only at hpr2 ⊢
      cases prb
      · have hch2 := hpr2.readBit
        rcases hch : pr2.readBit with ⟨chb, ch2⟩
        rw [hch] at hch2
        dsimp only at hch2 ⊢
        cases chb
        · simpa using hch2
        · simp only [if_pos rfl]
          exact hch2.read 2
      · simp only [if_pos rfl]
        have hrk2 := hpr2.read 6
        rcases hrk : pr2.readBits 6 with ⟨rkv, rk2⟩
        rw [hrk] at hrk2
        dsimp only at hrk2 ⊢
        have hch2 := hrk2.readBit
        rcases hch : rk2.readBit with ⟨chb, ch2⟩
        rw [hch] at hch2
        dsimp only at hch2 ⊢
        cases chb
        · simpa using hch2
        · simp only [if_pos rfl]
          exact hch2.read 2

/-- The `while (reader.bitsRemaining >= 1)` node loop of `parseTalentString`. -/
def parseNodesGo (r : BitReader) (nodeIndex : Nat) : List TalentNodeSelection :=
  if h : 1 ≤ r.bitsRemaining then
    (parseNode r nodeIndex).1 :: parseNodesGo (parseNode r nodeIndex).2 (nodeIndex + 1)
  else []
termination_by r.bitsRemaining
decreasing_by
  have hlt : r.bitPosition < 8 * r.data.length := by
    unfold BitReader.bitsRemaining at h
    omega
  obtain ⟨hd, h1, h2⟩ := parseNode_step r nodeIndex hlt
  unfold BitReader.bitsRemaining at h ⊢
  rw [hd]
  omega

/-- One lowercase hex digit. -/
def hexDigitChar (n : Nat) : Char :=
  "0123456789abcdef".data.getD n '0'

/-- `b.toString(16)` for a nonnegative integer. -/
def toHexChars (n : Nat) : List Char :=
  if n < 16 then [hexDigitChar n]
  else toHexChars (n / 16) ++ [hexDigitChar (n % 16)]
termination_by n
decreasing_by exact Nat.div_lt_self (by omega) (by omega)

/-- `b.toString(16).padStart(2, '0')`. -/
def hexByte (b : Nat) : List Char :=
  List.replicate (2 - (toHexChars b).length) '0' ++ toHexChars b

/-- The `for (let i = 0; i < 16; i++) hashBytes.push(reader.readBits(8))` loop. -/
def readHashBytes : Nat → BitReader → List Nat × BitReader
  | 0, r => ([], r)
  | k + 1, r =>
    let b := r.readBits 8
    let rest := readHashBytes k b.2
    (b.1 :: rest.1, rest.2)

/-- The static `SPEC_NAMES` table of talentParser.ts. -/
def SPEC_NAMES : Nat → Option String
  | 62 => some "Arcane Mage"
  | 63 => some "Fire Mage"
  | 64 => some "Frost Mage"
  | 65 => some "Holy Paladin"
  | 66 => some "Protection Paladin"
  | 70 => some "Retribution Paladin"
  | 71 => some "Arms Warrior"
  | 72 => some "Fury Warrior"
  | 73 => some "Protection Warrior"
  | 102 => some "Balance Druid"
  | 103 => some "Feral Druid"
  | 104 => some "Guardian Druid"
  | 105 => some "Restoration Druid"
  | 250 => some "Blood Death Knight"
  | 251 => some "Frost Death Knight"
  | 252 => some "Unholy Death Knight"
  | 253 => some "Beast Mastery Hunter"
  | 254 => some "Marksmanship Hunter"
  | 255 => some "Survival Hunter"
  | 256 => some "Discipline Priest"
  | 257 => some "Holy Priest"
  | 258 => some "Shadow Priest"
  | 259 => some "Assassination Rogue"
  | 260 => some "Outlaw Rogue"
  | 261 => some "Subtlety Rogue"
  | 262 => some "Elemental Shaman"
  | 263 => some "Enhancement Shaman"
  | 264 => some "Restoration Shaman"
  | 265 => some "Affliction Warlock"
  | 266 => some "Demonology Warlock"
  | 267 => some "Destruction Warlock"
  | 268 => some "Brewmaster Monk"
  | 270 => some "Mistweaver Monk"
  | 269 => some "Windwalker Monk"
  | 577 => some "Havoc Demon Hunter"
  | 581 => some "Vengeance Demon Hunter"
  | 1467 => some "Devastation Evoker"
  | 1468 => some "Preservation Evoker"
  | 1473 => some "Augmentation Evoker"
  | _ => none

/-- The structured selection record produced by `parseTalentString`. -/
structure ParsedTalentData where
  version : Nat
  specId : Nat
  specName : Option String
  treeHash : String
  nodes : List TalentNodeSelection
  rawBytes : List Nat
deriving Repr, DecidableEq

/-- `parseTalentString` from talentParser.ts. -/
def parseTalentString (talentString : String) : Except TalentError ParsedTalentData :=
  match decodeBase64 (jsTrim talentString.data) with
  | .error e => .error e
  | .ok bytes =>
    if bytes.length < 19 then .error (.tooShort bytes.length)
    else
      let v := BitReader.readBits ⟨bytes, 0⟩ 8
      let sp := v.2.readBits 16
      let hb := readHashBytes 16 sp.2
      .ok ⟨v.1, sp.1, SPEC_NAMES sp.1, ⟨(hb.1.map hexByte).flatten⟩,
        parseNodesGo hb.2 0, bytes⟩

/-- Bit `k` of the byte stream: little-endian within each byte, and 0 at or
past the end of the buffer. -/
def streamBit (data : List Nat) (k : Nat) : Bool :=
  (data.getD (k / 8) 0).testBit (k % 8)

/-- The little-endian value of the next `k` stream bits starting at `pos`. -/
def consumedVal (data : List Nat) (pos : Nat) : Nat → Nat
  | 0 => 0
  | k + 1 => (if streamBit data pos then 1 else 0) + 2 * consumedVal data (pos + 1) k

theorem consumedVal_succ (data : List Nat) (pos k : Nat) :
    consumedVal data pos (k + 1) =
      (if streamBit data pos then 1 else 0) + 2 * consumedVal data (pos + 1) k := rfl

theorem streamBit_of_end (data : List Nat) (k : Nat) (h : 8 * data.length ≤ k) :
    streamBit data k = false := by
  unfold streamBit
  have hge : data.length ≤ k / 8 := Nat.le_div_iff_mul_le (by omega) |>.2 (by omega)
  rw [List.getD_eq_default _ _ hge]
  simp

theorem consumedVal_lt (data : List Nat) (pos k : Nat) :
    consumedVal data pos k < 2 ^ k := by
  induction k generalizing pos with
  | zero => simp [consumedVal]
  | succ k ih =>
    have := ih (pos + 1)
    unfold consumedVal
    rw [Nat.pow_succ]
    split <;> omega

theorem consumedVal_of_end (data : List Nat) (pos k : Nat)
    (h : 8 * data.length ≤ pos) : consumedVal data pos k = 0 := by
  induction k generalizing pos with
  | zero => rfl
  | succ k ih =>
    rw [consumedVal_succ, streamBit_of_end data pos h, ih (pos + 1) (by omega)]
    simp

theorem testBit_consumedVal (data : List Nat) (pos k i : Nat) (h : i < k) :
    (consumedVal data pos k).testBit i = streamBit data (pos + i) := by
  induction k generalizing pos i with
  | zero => omega
  | succ k ih =>
    unfold consumedVal
    cases i with
    | zero =>
      rw [Nat.testBit_zero]
      rcases hb : streamBit data pos <;> simp [hb]
    | succ i =>
      rw [Nat.testBit_add_one]
      have hdiv : ((if streamBit data pos then 1 else 0) +
          2 * consumedVal data (pos + 1) k) / 2 = consumedVal data (pos + 1) k := by
        split <;> omega
      rw [hdiv, ih (pos + 1) i (by omega)]
      congr 1
      omega

theorem lor_shift_eq_add (res bit i : Nat) (hres : res < 2 ^ i) :
    res ||| (bit <<< i) = res + bit * 2 ^ i := by
  rw [Nat.shiftLeft_eq, Nat.lor_comm, Nat.mul_comm bit (2 ^ i),
    ← Nat.mul_add_lt_is_or hres bit]
  omega

theorem bit_expr_eq_streamBit (data : List Nat) (pos : Nat) (h : pos / 8 < data.length) :
    (data[pos / 8] >>> (pos % 8)) &&& 1 = (if streamBit data pos then 1 else 0) := by
  unfold streamBit
  rw [List.getD_eq_getElem data 0 h, Nat.and_one_is_mod, Nat.shiftRight_eq_div_pow,
    Nat.testBit_to_div_mod]
  by_cases hb : data[pos / 8] / 2 ^ (pos % 8) % 2 = 1
  · simp [hb]
  · have h0 : data[pos / 8] / 2 ^ (pos % 8) % 2 = 0 := by omega
    simp [h0]

theorem readBitsGo_val (k i res : Nat) (r : BitReader) (hres : res < 2 ^ i) :
    (readBitsGo k i res r).1 = res + consumedVal r.data r.bitPosition k * 2 ^ i := by
  induction k generalizing i res r with
  | zero => simp [readBitsGo, consumedVal]
  | succ k ih =>
    unfold readBitsGo
    split
    · next hlt =>
      rw [ih (i + 1) _ ⟨r.data, r.bitPosition + 1⟩ (by
        rw [bit_expr_eq_streamBit r.data r.bitPosition hlt,
          lor_shift_eq_add res _ i hres]
        rw [Nat.pow_succ]
        split <;> omega)]
      rw [bit_expr_eq_streamBit r.data r.bitPosition hlt,
        lor_shift_eq_add res _ i hres]
      show res + (if streamBit r.data r.bitPosition then 1 else 0) * 2 ^ i +
          consumedVal r.data (r.bitPosition + 1) k * 2 ^ (i + 1) =
        res + consumedVal r.data r.bitPosition (k + 1) * 2 ^ i
      rw [consumedVal_succ, Nat.pow_succ]
      split <;> ring
    · next hge =>
      have hpos : 8 * r.data.length ≤ r.bitPosition := by omega
      rw [consumedVal_of_end r.data r.bitPosition (k + 1) hpos]
      simp

theorem readBits_val (r : BitReader) (n : Nat) :
    (r.readBits n).1 = consumedVal r.data r.bitPosition n := by
  unfold BitReader.readBits
  rw [readBitsGo_val n 0 0 r (by omega)]
  simp

theorem readBits_lt (r : BitReader) (n : Nat) : (r.readBits n).1 < 2 ^ n := by
  rw [readBits_val]
  exact consumedVal_lt _ _ _

/-- C5: for every byte buffer, every cursor position, and every `n` with
`1 ≤ n ≤ 32`, `readBits(n)` never fails: bit `i` of the result equals the
cursor's `i`-th consumed stream bit (first bit read is least-significant,
little-endian within each byte), every stream bit at or past the end of the
buffer is 0 (zero-filled rather than raising), and the result has no bits
beyond the `n` requested. -/
theorem readBits_little_endian_zero_fill (data : List Nat) (pos n : Nat)
    (_hn : 1 ≤ n ∧ n ≤ 32) :
    (∀ i, i < n →
      ((BitReader.mk data pos).readBits n).1.testBit i = streamBit data (pos + i)) ∧
    ((BitReader.mk data pos).readBits n).1 < 2 ^ n ∧
    (∀ i, 8 * data.length ≤ pos + i → streamBit data (pos + i) = false) := by
  refine ⟨?_, readBits_lt _ _, fun i h => streamBit_of_end data (pos + i) h⟩
  intro i hi
  rw [readBits_val]
  exact testBit_consumedVal data pos n i hi

theorem readBits_little_endian_zero_fill_witness :
    (∀ i, i < 8 →
      ((BitReader.mk [0xa5] 6).readBits 8).1.testBit i = streamBit [0xa5] (6 + i)) ∧
    ((BitReader.mk [0xa5] 6).readBits 8).1 < 2 ^ 8 ∧
    (∀ i, 8 * [0xa5].length ≤ 6 + i → streamBit [0xa5] (6 + i) = false) :=
  readBits_little_endian_zero_fill [0xa5] 6 8 (by omega)

/-- Structural well-formedness of one decoded node selection (the branching
schema of claim C4). -/
def WellFormedSel (i : Nat) (n : TalentNodeSelection) : Prop :=
  n.nodeIndex = i ∧
  (n.isPurchased.isSome ↔ n.isSelected = true) ∧
  (n.isPartiallyRanked.isSome ↔ n.isPurchased = some true) ∧
  (n.ranksPurchased.isSome ↔ n.isPartiallyRanked = some true) ∧
  (∀ v, n.ranksPurchased = some v → v ≤ 63) ∧
  (n.isChoiceNode.isSome ↔ n.isPurchased = some true) ∧
  (n.choiceEntryIndex.isSome ↔ n.isChoiceNode = some true) ∧
  (∀ v, n.choiceEntryIndex = some v → v ≤ 3)

theorem parseNode_wf (r : BitReader) (idx : Nat) :
    WellFormedSel idx (parseNode r idx).1 := by
  unfold parseNode
  rcases hs : r.readBit with ⟨sb, s2⟩
  dsimp only
  cases sb
  · simp [WellFormedSel]
  · simp only [if_pos rfl]
    rcases hp : s2.readBit with ⟨pb, p2⟩
    dsimp only
    cases pb
    · simp [WellFormedSel]
    · simp only [if_pos rfl]
      rcases hpr : p2.readBit with ⟨prb, pr2⟩
      dsimp only
      cases prb
      · simp only [Bool.false_eq_true, if_false]
        rcases hch : pr2.readBit with ⟨chb, ch2⟩
        dsimp only
        cases chb
        · simp [WellFormedSel]
        · have hce : (ch2.readBits 2).1 < 4 := by simpa using readBits_lt ch2 2
          rcases hcev : ch2.readBits 2 with ⟨cev, ce2⟩
          rw [hcev] at hce
          simp at hce
          simp [WellFormedSel]
          omega
      · simp only [if_pos rfl]
        have hrk : (pr2.readBits 6).1 < 64 := by simpa using readBits_lt pr2 6
        rcases hrkv : pr2.readBits 6 with ⟨rkv, rk2⟩
        rw [hrkv] at hrk
        simp at hrk
        rcases hch : rk2.readBit with ⟨chb, ch2⟩
        dsimp only
        cases chb
        · simp [WellFormedSel]
          omega
        · have hce : (ch2.readBits 2).1 < 4 := by simpa using readBits_lt ch2 2
          rcases hcev : ch2.readBits 2 with ⟨cev, ce2⟩
          rw [hcev] at hce
          simp at hce
          simp [WellFormedSel]
          omega

theorem parseNodesGo_wf (r : BitReader) (idx : Nat) :
    ∀ j x, (parseNodesGo r idx).get? j = some x → WellFormedSel (idx + j) x := by
  induction r, idx using parseNodesGo.induct with
  | case1 r idx h ih =>
    intro j x hx
    unfold parseNodesGo at hx
    rw [dif_pos h] at hx
    cases j with
    | zero =>
      simp at hx
      rw [← hx]
      simpa using parseNode_wf r idx
    | succ j =>
      simp only [List.get?_cons_succ] at hx
      have h2 := ih j x hx
      rwa [show idx + 1 + j = idx + (j + 1) by omega] at h2
  | case2 r idx h =>
    intro j x hx
    unfold parseNodesGo at hx
    rw [dif_neg h] at hx
    simp at hx

/-- C4: every node selection in the list returned by a successful
`parseTalentString` is well-formed per the branching schema: entry `j` has
`nodeIndex = j`, `isPurchased` present iff selected, `isPartiallyRanked` and
`isChoiceNode` present iff purchased is true, `ranksPurchased` present iff
partially ranked is true and in `[0, 63]`, `choiceEntryIndex` present iff
choice is true and in `[0, 3]`; fields on branches not taken are absent. -/
theorem parse_nodes_wellformed (s : String) (d : ParsedTalentData)
    (h : parseTalentString s = .ok d) :
    ∀ j x, d.nodes.get? j = some x → WellFormedSel j x := by
  unfold parseTalentString at h
  cases hdec : decodeBase64 (jsTrim s.data) with
  | error e =>
    rw [hdec] at h
    exact absurd h (by simp)
  | ok bytes =>
    rw [hdec] at h
    dsimp only at h
    by_cases hlen : bytes.length < 19
    · rw [if_pos hlen] at h
      exact absurd h (by simp)
    · rw [if_neg hlen] at h
      simp only [Except.ok.injEq] at h
      intro j x hx
      rw [← h] at hx
      dsimp only at hx
      have := parseNodesGo_wf
        (readHashBytes 16 ((BitReader.readBits ⟨bytes, 0⟩ 8).2.readBits 16).2).2 0 j x hx
      simpa using this

/-- Fuelled mirror of `drainBytes` (structural recursion, so that the kernel
can evaluate concrete instances); `drainBytes_eq_fuel` proves it agrees with
the faithful while-loop embedding whenever the fuel covers `bitsInBuffer`. -/
def drainBytesFuel (outputLength : Nat) : Nat → DecodeState → DecodeState
  | 0, st => st
  | fuel + 1, st =>
    if 8 ≤ st.bitsInBuffer ∧ st.output.length < outputLength then
      drainBytesFuel outputLength fuel
        ⟨st.output ++ [st.bitBuffer &&& 0xff], st.bitBuffer >>> 8, st.bitsInBuffer - 8⟩
    else st

theorem drainBytes_eq_fuel (outputLength fuel : Nat) (st : DecodeState)
    (h : st.bitsInBuffer ≤ fuel) :
    drainBytesFuel outputLength fuel st = drainBytes outputLength st := by
  induction fuel generalizing st with
  | zero =>
    unfold drainBytes
    rw [if_neg (by omega)]
    rfl
  | succ fuel ih =>
    unfold drainBytesFuel drainBytes
    split
    · next hc =>
      exact ih _ (by simp; omega)
    · rfl

/-- Fuelled mirror of `parseNodesGo`. -/
def parseNodesGoFuel : Nat → BitReader → Nat → List TalentNodeSelection
  | 0, _, _ => []
  | fuel + 1, r, nodeIndex =>
    if 1 ≤ r.bitsRemaining then
      (parseNode r nodeIndex).1 :: parseNodesGoFuel fuel (parseNode r nodeIndex).2 (nodeIndex + 1)
    else []

theorem parseNodesGo_eq_fuel (fuel : Nat) (r : BitReader) (idx : Nat)
    (h : r.bitsRemaining ≤ fuel) :
    parseNodesGoFuel fuel r idx = parseNodesGo r idx := by
  induction fuel generalizing r idx with
  | zero =>
    unfold parseNodesGo
    rw [dif_neg (by omega)]
    rfl
  | succ fuel ih =>
    unfold parseNodesGoFuel parseNodesGo
    by_cases hg : 1 ≤ r.bitsRemaining
    · rw [if_pos hg, dif_pos hg]
      have hlt : r.bitPosition < 8 * r.data.length := by
        unfold BitReader.bitsRemaining at hg
        omega
      obtain ⟨hd, h1, h2⟩ := parseNode_step r idx hlt
      refine congrArg _ (ih _ _ ?_)
      unfold BitReader.bitsRemaining at h ⊢
      rw [hd]
      omega
    · rw [if_neg hg, dif_neg hg]

/-- Fuelled mirror of `toHexChars`. -/
def toHexCharsFuel : Nat → Nat → List Char
  | 0, n => [hexDigitChar n]
  | fuel + 1, n =>
    if n < 16 then [hexDigitChar n]
    else toHexCharsFuel fuel (n / 16) ++ [hexDigitChar (n % 16)]

theorem toHexChars_eq_fuel (fuel n : Nat) (h : n ≤ fuel) :
    toHexCharsFuel fuel n = toHexChars n := by
  induction fuel generalizing n with
  | zero =>
    unfold toHexChars
    rw [if_pos (by omega)]
    rfl
  | succ fuel ih =>
    unfold toHexCharsFuel toHexChars
    by_cases hn : n < 16
    · rw [if_pos hn, if_pos hn]
    · rw [if_neg hn, if_neg hn, ih (n / 16) (by omega)]

/-- Kernel-evaluable mirror of `decodeLoop`. -/
def decodeLoopE (outputLength : Nat) :
    List Char → DecodeState → Except TalentError DecodeState
  | [], st => .ok st
  | c :: cs, st =>
    match base64Lookup c with
    | none => .error (.invalidCharacter c)
    | some v =>
      decodeLoopE outputLength cs
        (drainBytesFuel outputLength (st.bitsInBuffer + 6)
          ⟨st.output, st.bitBuffer ||| (v <<< st.bitsInBuffer), st.bitsInBuffer + 6⟩)

theorem decodeLoopE_eq (outputLength : Nat) (cs : List Char) (st : DecodeState) :
    decodeLoopE outputLength cs st = decodeLoop outputLength cs st := by
  induction cs generalizing st with
  | nil => rfl
  | cons c cs ih =>
    unfold decodeLoopE decodeLoop
    cases base64Lookup c with
    | none => rfl
    | some v =>
      dsimp only
      rw [drainBytes_eq_fuel _ _ _ (by simp)]
      exact ih _

/-- Kernel-evaluable mirror of `decodeBase64`. -/
def decodeBase64E (input : List Char) : Except TalentError (List Nat) :=
  let cleanInput := input.filter (fun c => !jsWhitespace c)
  let outputLength := cleanInput.length * 6 / 8
  match decodeLoopE outputLength cleanInput ⟨[], 0, 0⟩ with
  | .error e => .error e
  | .ok st => .ok (st.output ++ List.replicate (outputLength - st.output.length) 0)

theorem decodeBase64E_eq (input : List Char) :
    decodeBase64E input = decodeBase64 input := by
  unfold decodeBase64E decodeBase64
  dsimp only
  rw [decodeLoopE_eq]

/-- Kernel-evaluable mirror of `parseTalentString`. -/
def parseTalentStringE (talentString : String) : Except TalentError ParsedTalentData :=
  match decodeBase64E (jsTrim talentString.data) with
  | .error e => .error e
  | .ok bytes =>
    if bytes.length < 19 then .error (.tooShort bytes.length)
    else
      let v := BitReader.readBits ⟨bytes, 0⟩ 8
      let sp := v.2.readBits 16
      let hb := readHashBytes 16 sp.2
      .ok ⟨v.1, sp.1, SPEC_NAMES sp.1,
        ⟨(hb.1.map (fun b =>
          List.replicate (2 - (toHexCharsFuel b b).length) '0' ++ toHexCharsFuel b b)).flatten⟩,
        parseNodesGoFuel hb.2.bitsRemaining hb.2 0, bytes⟩

theorem parseTalentStringE_eq (s : String) :
    parseTalentStringE s = parseTalentString s := by
  unfold parseTalentStringE parseTalentString
  rw [decodeBase64E_eq]
  cases decodeBase64 (jsTrim s.data) with
  | error e => rfl
  | ok bytes =>
    dsimp only
    by_cases hlen : bytes.length < 19
    · rw [if_pos hlen, if_pos hlen]
    · rw [if_neg hlen, if_neg hlen]
      rw [parseNodesGo_eq_fuel _ _ _ (Nat.le_refl _)]
      have hhex : ∀ b : Nat,
          List.replicate (2 - (toHexCharsFuel b b).length) '0' ++ toHexCharsFuel b b =
            hexByte b := by
        intro b
        rw [toHexChars_eq_fuel b b (Nat.le_refl _)]
        rfl
      simp only [hhex]

deriving instance DecidableEq for Except

/-- An unselected node selection, as the parser emits it. -/
def c4Node (i : Nat) : TalentNodeSelection := ⟨i, false, none, none, none, none, none⟩

/-- The record `parseTalentString` produces for 26 `A`s followed by `B`
(20 decoded bytes: a zero header and one trailing byte `16`). -/
def c4Data : ParsedTalentData :=
  ⟨0, 0, none, "00000000000000000000000000000000",
    [c4Node 0, c4Node 1, c4Node 2, c4Node 3,
     ⟨4, true, some false, none, none, none, none⟩, c4Node 5, c4Node 6],
    List.replicate 19 0 ++ [16]⟩

theorem parse_nodes_wellformed_witness :
    parseTalentString "AAAAAAAAAAAAAAAAAAAAAAAAAAB" = Except.ok c4Data ∧
    (∀ j x, c4Data.nodes.get? j = some x → WellFormedSel j x) := by
  have heq : parseTalentString "AAAAAAAAAAAAAAAAAAAAAAAAAAB" = Except.ok c4Data := by
    rw [← parseTalentStringE_eq]
    decide
  exact ⟨heq, parse_nodes_wellformed _ _ heq⟩

/-- The 6-bit values of a symbol list under the base64 reverse lookup. -/
def valuesOf (cs : List Char) : List Nat :=
  cs.map (fun c => (base64Lookup c).getD 0)

/-- The value of a list of 6-bit groups packed low-order-first. -/
def bitsVal : List Nat → Nat
  | [] => 0
  | v :: vs => v + 64 * bitsVal vs

theorem bitsVal_cons (v : Nat) (vs : List Nat) :
    bitsVal (v :: vs) = v + 64 * bitsVal vs := rfl

theorem base64Lookup_lt (c : Char) (v : Nat) (h : base64Lookup c = some v) :
    v < 64 := by
  unfold base64Lookup at h
  have := List.findIdx?_eq_some_iff_findIdx_eq.1 h
  have hlen : base64Alphabet.length = 64 := by decide
  omega

theorem valuesOf_lt (cs : List Char) : ∀ v ∈ valuesOf cs, v < 64 := by
  intro v hv
  unfold valuesOf at hv
  obtain ⟨c, _, hc⟩ := List.mem_map.1 hv
  cases hl : base64Lookup c with
  | none => rw [hl] at hc; simp at hc; omega
  | some w =>
    rw [hl] at hc
    simp at hc
    subst hc
    exact base64Lookup_lt c _ hl

theorem bitsVal_lt (vs : List Nat) (h : ∀ v ∈ vs, v < 64) :
    bitsVal vs < 2 ^ (6 * vs.length) := by
  induction vs with
  | nil => simp [bitsVal]
  | cons v vs ih =>
    have hv := h v (by simp)
    have hrest := ih (fun w hw => h w (by simp [hw]))
    rw [bitsVal_cons]
    have hpow : 2 ^ (6 * (v :: vs).length) = 64 * 2 ^ (6 * vs.length) := by
      simp only [List.length_cons]
      rw [show 6 * (vs.length + 1) = 6 + 6 * vs.length by ring, Nat.pow_add]
    rw [hpow]
    have h2 : 64 * bitsVal vs ≤ 64 * (2 ^ (6 * vs.length) - 1) :=
      Nat.mul_le_mul_left 64 (by omega)
    have h3 : 1 ≤ 2 ^ (6 * vs.length) := Nat.one_le_two_pow
    omega

theorem bitsVal_testBit (vs : List Nat) (h : ∀ v ∈ vs, v < 64) (k : Nat) :
    (bitsVal vs).testBit k = (vs.getD (k / 6) 0).testBit (k % 6) := by
  induction vs generalizing k with
  | nil => simp [bitsVal]
  | cons v vs ih =>
    have hv := h v (by simp)
    have hrest : ∀ w ∈ vs, w < 64 := fun w hw => h w (by simp [hw])
    by_cases hk : k < 6
    · have hdiv : k / 6 = 0 := Nat.div_eq_of_lt hk
      have hmod : k % 6 = k := Nat.mod_eq_of_lt hk
      rw [hdiv, hmod, bitsVal_cons]
      simp only [List.getD_cons_zero]
      rw [Nat.testBit_to_div_mod, Nat.testBit_to_div_mod]
      have hsplitpow : (2:Nat) ^ (6 - k) * 2 ^ k = 64 := by
        rw [← Nat.pow_add, show 6 - k + k = 6 by omega]
      have h64 : (64:Nat) * bitsVal vs = 2 ^ (6 - k) * bitsVal vs * 2 ^ k := by
        calc (64:Nat) * bitsVal vs = 2 ^ (6 - k) * 2 ^ k * bitsVal vs := by
              rw [hsplitpow]
        _ = 2 ^ (6 - k) * bitsVal vs * 2 ^ k := by ring
      rw [h64, Nat.add_mul_div_right _ _ (Nat.two_pow_pos k)]
      have heven : 2 ^ (6 - k) * bitsVal vs = 2 * (2 ^ (5 - k) * bitsVal vs) := by
        rw [← Nat.mul_assoc]
        congr 1
        rw [show (6 - k) = 1 + (5 - k) by omega, Nat.pow_add]
      rw [heven, Nat.mul_comm 2 (2 ^ (5 - k) * bitsVal vs),
        Nat.add_mul_mod_self_right]
    · obtain ⟨m, rfl⟩ : ∃ m, k = 6 + m := ⟨k - 6, by omega⟩
      have h6 : (v + 64 * bitsVal vs) / 2 ^ 6 = bitsVal vs := by
        rw [show (64:Nat) * bitsVal vs = bitsVal vs * 2 ^ 6 by ring]
        rw [Nat.add_mul_div_right _ _ (by norm_num : (0:Nat) < 2 ^ 6)]
        rw [Nat.div_eq_of_lt (by omega : v < 2 ^ 6)]
        omega
      have hsplit : (bitsVal (v :: vs)).testBit (6 + m) = (bitsVal vs).testBit m := by
        rw [Nat.testBit_to_div_mod, Nat.testBit_to_div_mod, bitsVal_cons]
        rw [Nat.pow_add, ← Nat.div_div_eq_div_mul, h6]
      rw [hsplit, ih hrest m]
      rw [show (6 + m) / 6 = m / 6 + 1 by omega, show (6 + m) % 6 = m % 6 by omega]
      simp [List.getD_cons_succ]

/-- The packing-loop invariant of `decodeBase64`: after `k` symbols of total
little-endian value `N` have been absorbed, the output holds the low
`min (6k/8, outputLength)` bytes of `N` and the buffer the bits above them. -/
def DecodeInv (outputLength k N : Nat) (st : DecodeState) : Prop :=
  st.output.length = min (6 * k / 8) outputLength ∧
  st.bitsInBuffer = 6 * k - 8 * st.output.length ∧
  st.bitBuffer = N / 2 ^ (8 * st.output.length) ∧
  N < 2 ^ (6 * k) ∧
  (∀ i, i < st.output.length → st.output.getD i 0 = N / 2 ^ (8 * i) % 256)

theorem nat_and_255 (x : Nat) : x &&& 255 = x % 256 := by
  have h := Nat.and_pow_two_sub_one_eq_mod x 8
  norm_num at h
  exact h

theorem drainBytes_inv (outputLength : Nat) : ∀ (n T N : Nat) (st : DecodeState),
    st.bitsInBuffer ≤ n →
    st.bitBuffer = N / 2 ^ (8 * st.output.length) →
    st.bitsInBuffer = T - 8 * st.output.length →
    8 * st.output.length ≤ T →
    st.output.length ≤ min (T / 8) outputLength →
    (∀ i, i < st.output.length → st.output.getD i 0 = N / 2 ^ (8 * i) % 256) →
    (drainBytes outputLength st).output.length = min (T / 8) outputLength ∧
    (drainBytes outputLength st).bitBuffer =
      N / 2 ^ (8 * (drainBytes outputLength st).output.length) ∧
    (drainBytes outputLength st).bitsInBuffer =
      T - 8 * (drainBytes outputLength st).output.length ∧
    (∀ i, i < (drainBytes outputLength st).output.length →
      (drainBytes outputLength st).output.getD i 0 = N / 2 ^ (8 * i) % 256) := by
  intro n
  induction n with
  | zero =>
    intro T N st hn hbb hbib h8 he hbytes
    unfold drainBytes
    rw [if_neg (by omega)]
    exact ⟨by omega, hbb, hbib, hbytes⟩
  | succ n ih =>
    intro T N st hn hbb hbib h8 he hbytes
    unfold drainBytes
    by_cases hc : 8 ≤ st.bitsInBuffer ∧ st.output.length < outputLength
    · rw [if_pos hc]
      have hlen2 : (st.output ++ [st.bitBuffer &&& 0xff]).length = st.output.length + 1 := by
        simp
      refine ih T N ⟨st.output ++ [st.bitBuffer &&& 0xff], st.bitBuffer >>> 8,
        st.bitsInBuffer - 8⟩ (by simp; omega) ?_ ?_ ?_ ?_ ?_
      · show st.bitBuffer >>> 8 = N / 2 ^ (8 * (st.output ++ [st.bitBuffer &&& 0xff]).length)
        rw [hlen2, Nat.shiftRight_eq_div_pow, hbb, Nat.div_div_eq_div_mul, ← Nat.pow_add,
          show 8 * st.output.length + 8 = 8 * (st.output.length + 1) by ring]
      · show st.bitsInBuffer - 8 = T - 8 * (st.output ++ [st.bitBuffer &&& 0xff]).length
        rw [hlen2]
        omega
      · show 8 * (st.output ++ [st.bitBuffer &&& 0xff]).length ≤ T
        rw [hlen2]
        omega
      · show (st.output ++ [st.bitBuffer &&& 0xff]).length ≤ min (T / 8) outputLength
        rw [hlen2]
        omega
      · show ∀ i, i < (st.output ++ [st.bitBuffer &&& 0xff]).length →
          (st.output ++ [st.bitBuffer &&& 0xff]).getD i 0 = N / 2 ^ (8 * i) % 256
        rw [hlen2]
        intro i hi
        by_cases hilt : i < st.output.length
        · rw [List.getD_append _ _ _ _ hilt]
          exact hbytes i hilt
        · have hieq : i = st.output.length := by omega
          subst hieq
          rw [List.getD_append_right _ _ _ _ (Nat.le_refl _)]
          simp only [Nat.sub_self, List.getD_cons_zero]
          rw [nat_and_255, hbb]
    · rw [if_neg hc]
      exact ⟨by omega, hbb, hbib, hbytes⟩

theorem decodeStep (outputLength k N v : Nat) (st : DecodeState)
    (hInv : DecodeInv outputLength k N st) (hv : v < 64) :
    DecodeInv outputLength (k + 1) (N + v * 2 ^ (6 * k))
      (drainBytes outputLength
        ⟨st.output, st.bitBuffer ||| (v <<< st.bitsInBuffer), st.bitsInBuffer + 6⟩) := by
  obtain ⟨hlen, hbib, hbb, hN, hbytes⟩ := hInv
  have h8e : 8 * st.output.length ≤ 6 * k := by omega
  have hbblt : st.bitBuffer < 2 ^ st.bitsInBuffer := by
    rw [hbb, hbib]
    refine (Nat.div_lt_iff_lt_mul (Nat.two_pow_pos _)).2 ?_
    rw [← Nat.pow_add, show 6 * k - 8 * st.output.length + 8 * st.output.length = 6 * k
      by omega]
    exact hN
  have hlor : st.bitBuffer ||| (v <<< st.bitsInBuffer) =
      st.bitBuffer + v * 2 ^ st.bitsInBuffer :=
    lor_shift_eq_add _ _ _ hbblt
  have hsplitv : v * 2 ^ (6 * k) =
      v * 2 ^ (6 * k - 8 * st.output.length) * 2 ^ (8 * st.output.length) := by
    rw [Nat.mul_assoc, ← Nat.pow_add,
      show 6 * k - 8 * st.output.length + 8 * st.output.length = 6 * k by omega]
  have hbbval : st.bitBuffer + v * 2 ^ st.bitsInBuffer =
      (N + v * 2 ^ (6 * k)) / 2 ^ (8 * st.output.length) := by
    rw [hbb, hbib, hsplitv, Nat.add_mul_div_right _ _ (Nat.two_pow_pos _)]
  have hN' : N + v * 2 ^ (6 * k) < 2 ^ (6 * (k + 1)) := by
    have hp : (2:Nat) ^ (6 * (k + 1)) = 64 * 2 ^ (6 * k) := by
      rw [show 6 * (k + 1) = 6 + 6 * k by ring, Nat.pow_add]
    have hvm : v * 2 ^ (6 * k) ≤ 63 * 2 ^ (6 * k) :=
      Nat.mul_le_mul_right _ (by omega)
    omega
  have hbytes' : ∀ i, i < st.output.length →
      st.output.getD i 0 = (N + v * 2 ^ (6 * k)) / 2 ^ (8 * i) % 256 := by
    intro i hi
    rw [hbytes i hi]
    have hsp : v * 2 ^ (6 * k) = v * 2 ^ (6 * k - 8 * i) * 2 ^ (8 * i) := by
      rw [Nat.mul_assoc, ← Nat.pow_add,
        show 6 * k - 8 * i + 8 * i = 6 * k by omega]
    rw [hsp, Nat.add_mul_div_right _ _ (Nat.two_pow_pos _)]
    have h256 : v * 2 ^ (6 * k - 8 * i) = v * 2 ^ (6 * k - 8 * i - 8) * 256 := by
      rw [Nat.mul_assoc]
      congr 1
      rw [show (256:Nat) = 2 ^ 8 by norm_num, ← Nat.pow_add,
        show 6 * k - 8 * i - 8 + 8 = 6 * k - 8 * i by omega]
    rw [h256, Nat.add_mul_mod_self_right]
  have hmain := drainBytes_inv outputLength (st.bitsInBuffer + 6) (6 * (k + 1))
    (N + v * 2 ^ (6 * k))
    ⟨st.output, st.bitBuffer ||| (v <<< st.bitsInBuffer), st.bitsInBuffer + 6⟩
    (by simp)
    (by show st.bitBuffer ||| (v <<< st.bitsInBuffer) = _
        rw [hlor, hbbval])
    (by show st.bitsInBuffer + 6 = 6 * (k + 1) - 8 * st.output.length
        omega)
    (by show 8 * st.output.length ≤ 6 * (k + 1)
        omega)
    (by show st.output.length ≤ min (6 * (k + 1) / 8) outputLength
        omega)
    (by intro i hi
        exact hbytes' i hi)
  obtain ⟨m1, m2, m3, m4⟩ := hmain
  exact ⟨m1, m3, m2, hN', m4⟩

theorem decodeLoop_ok (outputLength : Nat) (cs : List Char) :
    ∀ (k N : Nat) (st : DecodeState),
    (∀ c ∈ cs, (base64Lookup c).isSome = true) →
    DecodeInv outputLength k N st →
    ∃ st', decodeLoop outputLength cs st = .ok st' ∧
      DecodeInv outputLength (k + cs.length)
        (N + bitsVal (valuesOf cs) * 2 ^ (6 * k)) st' := by
  induction cs with
  | nil =>
    intro k N st _ hInv
    refine ⟨st, rfl, ?_⟩
    simpa [valuesOf, bitsVal] using hInv
  | cons c cs ih =>
    intro k N st hvalid hInv
    obtain ⟨v, hv⟩ := Option.isSome_iff_exists.1 (hvalid c (by simp))
    have hv64 := base64Lookup_lt c v hv
    unfold decodeLoop
    rw [hv]
    have hstep := decodeStep outputLength k N v st hInv hv64
    obtain ⟨st', hrun, hInv'⟩ := ih (k + 1) (N + v * 2 ^ (6 * k)) _
      (fun w hw => hvalid w (by simp [hw])) hstep
    refine ⟨st', hrun, ?_⟩
    have hval : valuesOf (c :: cs) = v :: valuesOf cs := by
      unfold valuesOf
      simp [hv]
    rw [hval, bitsVal_cons,
      show N + (v + 64 * bitsVal (valuesOf cs)) * 2 ^ (6 * k) =
        N + v * 2 ^ (6 * k) + bitsVal (valuesOf cs) * 2 ^ (6 * (k + 1)) by
          rw [show 6 * (k + 1) = 6 * k + 6 by ring, Nat.pow_add]; ring,
      show k + (c :: cs).length = k + 1 + cs.length by
        simp only [List.length_cons]; omega]
    exact hInv'

/-- C2: for every input string whose non-whitespace characters all belong to
the 64-symbol alphabet, `decodeBase64` succeeds and returns exactly
`symbolCount * 6 / 8` bytes, and for every bit position `k` below
`8 * outputLength`, bit `k mod 8` of output byte `k div 8` equals bit
`k mod 6` of the 6-bit value of symbol `k div 6` — bits are packed
low-order-first and trailing partial bits are discarded. -/
theorem decodeBase64_valid_bits (input : List Char)
    (hvalid : ∀ c ∈ input, jsWhitespace c = false → (base64Lookup c).isSome = true) :
    ∃ out, decodeBase64 input = .ok out ∧
      out.length = (input.filter (fun c => !jsWhitespace c)).length * 6 / 8 ∧
      (∀ k, k < 8 * out.length →
        (out.getD (k / 8) 0).testBit (k % 8) =
          ((valuesOf (input.filter (fun c => !jsWhitespace c))).getD (k / 6) 0).testBit
            (k % 6)) := by
  set cl := input.filter (fun c => !jsWhitespace c) with hcl
  have hclv : ∀ c ∈ cl, (base64Lookup c).isSome = true := by
    intro c hc
    rw [hcl] at hc
    have := List.mem_filter.1 hc
    exact hvalid c this.1 (by simpa using this.2)
  have hInit : DecodeInv (cl.length * 6 / 8) 0 0 ⟨[], 0, 0⟩ := by
    refine ⟨by simp, by simp, by simp, by simp, ?_⟩
    intro i hi
    simp at hi
  obtain ⟨st', hrun, hlen', hbib', hbb', hN', hbytes'⟩ :=
    decodeLoop_ok (cl.length * 6 / 8) cl 0 0 ⟨[], 0, 0⟩ hclv hInit
  have hlenOut : st'.output.length = cl.length * 6 / 8 := by
    rw [hlen']
    omega
  have hvals64 := valuesOf_lt cl
  refine ⟨st'.output, ?_, ?_, ?_⟩
  · unfold decodeBase64
    dsimp only
    rw [hrun]
    simp [hlenOut]
  · exact hlenOut
  · intro k hk
    have hkd : k / 8 < st'.output.length := by omega
    have hbyte := hbytes' (k / 8) hkd
    rw [hbyte]
    have hNval : (0 : Nat) + bitsVal (valuesOf cl) * 2 ^ (6 * 0) = bitsVal (valuesOf cl) := by
      simp
    rw [hNval]
    rw [show (256:Nat) = 2 ^ 8 by norm_num, Nat.testBit_mod_two_pow]
    have hk8 : k % 8 < 8 := Nat.mod_lt _ (by omega)
    rw [← Nat.shiftRight_eq_div_pow, Nat.testBit_shiftRight]
    rw [show 8 * (k / 8) + k % 8 = k by omega]
    simp only [hk8, decide_True, Bool.true_and]
    exact bitsVal_testBit (valuesOf cl) hvals64 k

theorem decodeBase64_valid_bits_witness :
    ∃ out, decodeBase64 "AB".data = Except.ok out ∧
      out.length = ("AB".data.filter (fun c => !jsWhitespace c)).length * 6 / 8 ∧
      (∀ k, k < 8 * out.length →
        (out.getD (k / 8) 0).testBit (k % 8) =
          ((valuesOf ("AB".data.filter (fun c => !jsWhitespace c))).getD (k / 6) 0).testBit
            (k % 6)) :=
  decodeBase64_valid_bits "AB".data (by decide)

theorem filter_dropWhile_ws (m : List Char) :
    (m.dropWhile jsWhitespace).filter (fun c => !jsWhitespace c) =
      m.filter (fun c => !jsWhitespace c) := by
  induction m with
  | nil => rfl
  | cons a m ih =>
    by_cases ha : jsWhitespace a
    · rw [List.dropWhile_cons_of_pos ha, ih, List.filter_cons_of_neg (by simp [ha])]
    · rw [List.dropWhile_cons_of_neg (by simp [ha])]

theorem filter_jsTrim (l : List Char) :
    (jsTrim l).filter (fun c => !jsWhitespace c) = l.filter (fun c => !jsWhitespace c) := by
  unfold jsTrim
  rw [List.filter_reverse, filter_dropWhile_ws, List.filter_reverse,
    filter_dropWhile_ws, List.reverse_reverse]

theorem jsTrim_subset (l : List Char) (c : Char) (h : c ∈ jsTrim l) : c ∈ l := by
  unfold jsTrim at h
  rw [List.mem_reverse] at h
  have h1 := (List.dropWhile_sublist jsWhitespace).subset h
  rw [List.mem_reverse] at h1
  exact (List.dropWhile_sublist jsWhitespace).subset h1

theorem readBitsGo_pos_exact (k i res : Nat) (r : BitReader)
    (h : r.bitPosition + k ≤ 8 * r.data.length) :
    (readBitsGo k i res r).2 = ⟨r.data, r.bitPosition + k⟩ := by
  induction k generalizing i res r with
  | zero => simp [readBitsGo]
  | succ k ih =>
    unfold readBitsGo
    have hlt : r.bitPosition / 8 < r.data.length :=
      (Nat.div_lt_iff_lt_mul (by omega : 0 < 8)).2 (by omega)
    rw [dif_pos hlt]
    rw [ih _ _ ⟨r.data, r.bitPosition + 1⟩
      (show r.bitPosition + 1 + k ≤ 8 * r.data.length by omega)]
    show BitReader.mk r.data (r.bitPosition + 1 + k) = ⟨r.data, r.bitPosition + (k + 1)⟩
    congr 1
    omega

theorem readBits_pos_exact (r : BitReader) (n : Nat)
    (h : r.bitPosition + n ≤ 8 * r.data.length) :
    (r.readBits n).2 = ⟨r.data, r.bitPosition + n⟩ :=
  readBitsGo_pos_exact n 0 0 r h

theorem readHashBytes_pos_exact (k : Nat) (r : BitReader)
    (h : r.bitPosition + 8 * k ≤ 8 * r.data.length) :
    (readHashBytes k r).2 = ⟨r.data, r.bitPosition + 8 * k⟩ := by
  induction k generalizing r with
  | zero => simp [readHashBytes]
  | succ k ih =>
    unfold readHashBytes
    dsimp only
    rw [readBits_pos_exact r 8 (by omega)]
    rw [ih ⟨r.data, r.bitPosition + 8⟩
      (show r.bitPosition + 8 + 8 * k ≤ 8 * r.data.length by omega)]
    show BitReader.mk r.data (r.bitPosition + 8 + 8 * k) = ⟨r.data, r.bitPosition + 8 * (k + 1)⟩
    congr 1
    omega

theorem parseNodesGo_length (r : BitReader) (idx : Nat) :
    (parseNodesGo r idx).length ≤ r.bitsRemaining := by
  induction r, idx using parseNodesGo.induct with
  | case1 r idx h ih =>
    unfold parseNodesGo
    rw [dif_pos h]
    have hlt : r.bitPosition < 8 * r.data.length := by
      unfold BitReader.bitsRemaining at h
      omega
    obtain ⟨hd, h1, h2⟩ := parseNode_step r idx hlt
    have hrem : (parseNode r idx).2.bitsRemaining < r.bitsRemaining := by
      unfold BitReader.bitsRemaining
      rw [hd]
      unfold BitReader.bitsRemaining at h
      omega
    simp only [List.length_cons]
    omega
  | case2 r idx h =>
    unfold parseNodesGo
    rw [dif_neg h]
    simp

/-- C9: `parseTalentString` terminates on every input: on inputs that pass
the character and length checks it returns a record whose node list comes from
a loop that runs while at least one unread bit remains, strictly advancing the
cursor, hence executes at most `8 * decodedByteLength - 152` iterations
(one node per iteration). -/
theorem parse_terminates_bound (s : String)
    (hvalid : ∀ c ∈ s.data, jsWhitespace c = false → (base64Lookup c).isSome = true)
    (hlen19 : 19 ≤ (s.data.filter (fun c => !jsWhitespace c)).length * 6 / 8) :
    ∃ d, parseTalentString s = .ok d ∧
      d.rawBytes.length = (s.data.filter (fun c => !jsWhitespace c)).length * 6 / 8 ∧
      d.nodes.length ≤ 8 * d.rawBytes.length - 152 := by
  have hvalid2 : ∀ c ∈ jsTrim s.data, jsWhitespace c = false →
      (base64Lookup c).isSome = true :=
    fun c hc => hvalid c (jsTrim_subset _ _ hc)
  obtain ⟨out, hdec, hlen, _⟩ := decodeBase64_valid_bits (jsTrim s.data) hvalid2
  rw [filter_jsTrim] at hlen
  have hout19 : 19 ≤ out.length := by omega
  unfold parseTalentString
  rw [hdec]
  dsimp only
  rw [if_neg (by omega)]
  rw [readBits_pos_exact ⟨out, 0⟩ 8
    (show 0 + 8 ≤ 8 * out.length by omega)]
  rw [readBits_pos_exact ⟨out, 0 + 8⟩ 16
    (show 0 + 8 + 16 ≤ 8 * out.length by omega)]
  rw [readHashBytes_pos_exact 16 ⟨out, 0 + 8 + 16⟩
    (show 0 + 8 + 16 + 8 * 16 ≤ 8 * out.length by omega)]
  refine ⟨_, rfl, hlen, ?_⟩
  have hb := parseNodesGo_length ⟨out, 0 + 8 + 16 + 8 * 16⟩ 0
  unfold BitReader.bitsRemaining at hb
  dsimp only at hb ⊢
  omega

theorem parse_terminates_bound_witness :
    ∃ d, parseTalentString "AAAAAAAAAAAAAAAAAAAAAAAAAAB" = .ok d ∧
      d.rawBytes.length =
        ("AAAAAAAAAAAAAAAAAAAAAAAAAAB".data.filter (fun c => !jsWhitespace c)).length * 6 / 8 ∧
      d.nodes.length ≤ 8 * d.rawBytes.length - 152 :=
  parse_terminates_bound "AAAAAAAAAAAAAAAAAAAAAAAAAAB" (by decide) (by decide)

/-- `'added' | 'removed' | 'changed' | 'unchanged'`. -/
inductive DiffType where
  | added
  | removed
  | changed
  | unchanged
deriving Repr, DecidableEq

/-- The optional `changeDetails` object of a diff entry. -/
structure ChangeDetails where
  rankChange : Option (Nat × Nat)
  choiceChange : Option (Nat × Nat)
deriving Repr, DecidableEq

/-- One entry of the diff list (`TalentDiffNode` in talentDiff.ts). -/
structure TalentDiffNode where
  nodeIndex : Nat
  diffType : DiffType
  buildA : Option TalentNodeSelection
  buildB : Option TalentNodeSelection
  changeDetails : Option ChangeDetails
deriving Repr, DecidableEq

structure DiffSummary where
  added : List Nat
  removed : List Nat
  changed : List Nat
deriving Repr, DecidableEq

structure TalentDiffResult where
  specId : Nat
  specName : Option String
  diffs : List TalentDiffNode
  summary : DiffSummary
deriving Repr, DecidableEq

/-- `nodeA.ranksPurchased ?? (nodeA.isPartiallyRanked ? 1 : 0)`: JS `??` keeps
a present value (even 0) and the ternary tests truthiness (`some true`). -/
def effectiveRank (n : TalentNodeSelection) : Nat :=
  n.ranksPurchased.getD (if n.isPartiallyRanked = some true then 1 else 0)

/-- `nodeA.choiceEntryIndex ?? 0`. -/
def effectiveChoice (n : TalentNodeSelection) : Nat :=
  n.choiceEntryIndex.getD 0

/-- `getChangeDetails` from talentDiff.ts: rank comparison only when at least
one side is truthy `isPartiallyRanked`, choice comparison only when at least
one side is truthy `isChoiceNode`; `null` when nothing changed. -/
def getChangeDetails (nodeA nodeB : TalentNodeSelection) : Option ChangeDetails :=
  let rankChange : Option (Nat × Nat) :=
    if (nodeA.isPartiallyRanked = some true ∨ nodeB.isPartiallyRanked = some true) ∧
        effectiveRank nodeA ≠ effectiveRank nodeB then
      some (effectiveRank nodeA, effectiveRank nodeB)
    else none
  let choiceChange : Option (Nat × Nat) :=
    if (nodeA.isChoiceNode = some true ∨ nodeB.isChoiceNode = some true) ∧
        effectiveChoice nodeA ≠ effectiveChoice nodeB then
      some (effectiveChoice nodeA, effectiveChoice nodeB)
    else none
  if rankChange.isSome ∨ choiceChange.isSome then some ⟨rankChange, choiceChange⟩
  else none

/-- `Map.set` over the node list followed by `Map.get`: the last entry with a
given `nodeIndex` wins. -/
def nodesMapGet (nodes : List TalentNodeSelection) (i : Nat) : Option TalentNodeSelection :=
  nodes.foldl (fun acc n => if n.nodeIndex = i then some n else acc) none

/-- `new Set([...])` converted back to a list: insertion order, first
occurrence kept. -/
def uniqueIndices {α : Type} [DecidableEq α] (l : List α) : List α :=
  l.foldl (fun acc i => if i ∈ acc then acc else acc ++ [i]) []

/-- `nodeA?.isSelected ?? false`. -/
def selectedFlag (o : Option TalentNodeSelection) : Bool :=
  match o with
  | some n => n.isSelected
  | none => false

/-- The body of the `for (const nodeIndex of allIndices)` loop of
`diffTalentBuilds`: extend the diff list and the summary lists for one index. -/
def diffStep (nodesA nodesB : List TalentNodeSelection)
    (acc : List TalentDiffNode × DiffSummary) (nodeIndex : Nat) :
    List TalentDiffNode × DiffSummary :=
  let nodeA := nodesMapGet nodesA nodeIndex
  let nodeB := nodesMapGet nodesB nodeIndex
  let selectedA := selectedFlag nodeA
  let selectedB := selectedFlag nodeB
  if selectedB ∧ ¬selectedA then
    (acc.1 ++ [⟨nodeIndex, .added, none, nodeB, none⟩],
      ⟨acc.2.added ++ [nodeIndex], acc.2.removed, acc.2.changed⟩)
  else if selectedA ∧ ¬selectedB then
    (acc.1 ++ [⟨nodeIndex, .removed, nodeA, none, none⟩],
      ⟨acc.2.added, acc.2.removed ++ [nodeIndex], acc.2.changed⟩)
  else if selectedA ∧ selectedB then
    match nodeA, nodeB with
    | some a, some b =>
      match getChangeDetails a b with
      | some cd =>
        (acc.1 ++ [⟨nodeIndex, .changed, nodeA, nodeB, some cd⟩],
          ⟨acc.2.added, acc.2.removed, acc.2.changed ++ [nodeIndex]⟩)
      | none =>
        (acc.1 ++ [⟨nodeIndex, .unchanged, nodeA, nodeB, none⟩], acc.2)
    | _, _ => acc
  else acc

/-- Insert into an ascending list (helper for `jsSortAsc`). -/
def insertSorted (x : Nat) : List Nat → List Nat
  | [] => [x]
  | y :: ys => if x ≤ y then x :: y :: ys else y :: insertSorted x ys

/-- `summary.added.sort((a, b) => a - b)`: sort ascending by node index
(modelled as an insertion sort, which produces the same ascending list). -/
def jsSortAsc (l : List Nat) : List Nat :=
  l.foldr insertSorted []

/-- `buildA.specName || buildA.specId` rendered into the error message. -/
def jsDisplay (b : ParsedTalentData) : String :=
  match b.specName with
  | some nm => if nm = "" then toString b.specId else nm
  | none => toString b.specId

/-- `diffTalentBuilds` from talentDiff.ts. -/
def diffTalentBuilds (buildA buildB : ParsedTalentData) :
    Except TalentError TalentDiffResult :=
  if buildA.specId ≠ buildB.specId then
    .error (.specMismatch (jsDisplay buildA) (jsDisplay buildB))
  else
    let allIndices := uniqueIndices
      (buildA.nodes.map (fun n => n.nodeIndex) ++ buildB.nodes.map (fun n => n.nodeIndex))
    let folded := allIndices.foldl (diffStep buildA.nodes buildB.nodes) ([], ⟨[], [], []⟩)
    .ok ⟨buildA.specId, buildA.specName, folded.1,
      ⟨jsSortAsc folded.2.added, jsSortAsc folded.2.removed, jsSortAsc folded.2.changed⟩⟩

/-- The one diff entry the loop body of `diffTalentBuilds` produces for an
index (none when the index is selected in neither build). -/
def diffEntryFor (nodesA nodesB : List TalentNodeSelection) (i : Nat) :
    Option TalentDiffNode :=
  let nodeA := nodesMapGet nodesA i
  let nodeB := nodesMapGet nodesB i
  let selectedA := selectedFlag nodeA
  let selectedB := selectedFlag nodeB
  if selectedB ∧ ¬selectedA then some ⟨i, .added, none, nodeB, none⟩
  else if selectedA ∧ ¬selectedB then some ⟨i, .removed, nodeA, none, none⟩
  else if selectedA ∧ selectedB then
    match nodeA, nodeB with
    | some a, some b =>
      match getChangeDetails a b with
      | some cd => some ⟨i, .changed, nodeA, nodeB, some cd⟩
      | none => some ⟨i, .unchanged, nodeA, nodeB, none⟩
    | _, _ => none
  else none

/-- `selectedB && !selectedA` for an index. -/
def addedIdx (nodesA nodesB : List TalentNodeSelection) (i : Nat) : Bool :=
  selectedFlag (nodesMapGet nodesB i) && !selectedFlag (nodesMapGet nodesA i)

/-- `selectedA && !selectedB` for an index. -/
def removedIdx (nodesA nodesB : List TalentNodeSelection) (i : Nat) : Bool :=
  selectedFlag (nodesMapGet nodesA i) && !selectedFlag (nodesMapGet nodesB i)

/-- Both selected and `getChangeDetails` non-null for an index. -/
def changedIdx (nodesA nodesB : List TalentNodeSelection) (i : Nat) : Bool :=
  selectedFlag (nodesMapGet nodesA i) && selectedFlag (nodesMapGet nodesB i) &&
    (match nodesMapGet nodesA i, nodesMapGet nodesB i with
     | some a, some b => (getChangeDetails a b).isSome
     | _, _ => false)

theorem diffStep_spec (nodesA nodesB : List TalentNodeSelection)
    (acc : List TalentDiffNode × DiffSummary) (i : Nat) :
    diffStep nodesA nodesB acc i =
      (acc.1 ++ (diffEntryFor nodesA nodesB i).toList,
        ⟨acc.2.added ++ (if addedIdx nodesA nodesB i then [i] else []),
         acc.2.removed ++ (if removedIdx nodesA nodesB i then [i] else []),
         acc.2.changed ++ (if changedIdx nodesA nodesB i then [i] else [])⟩) := by
  unfold diffStep diffEntryFor addedIdx removedIdx changedIdx
  dsimp only
  by_cases hA : selectedFlag (nodesMapGet nodesA i) = true <;>
    by_cases hB : selectedFlag (nodesMapGet nodesB i) = true
  · rcases hgA : nodesMapGet nodesA i with _ | a
    · rw [hgA] at hA
      simp [selectedFlag] at hA
    · rcases hgB : nodesMapGet nodesB i with _ | b
      · rw [hgB] at hB
        simp [selectedFlag] at hB
      · rw [hgA] at hA
        rw [hgB] at hB
        rcases hcd : getChangeDetails a b with _ | cd <;>
          simp [hA, hB, hgA, hgB, hcd]
  · simp [hA, hB]
  · simp [hA, hB]
  · simp [hA, hB]

theorem diffFold_spec (nodesA nodesB : List TalentNodeSelection) (l : List Nat) :
    ∀ acc : List TalentDiffNode × DiffSummary,
    l.foldl (diffStep nodesA nodesB) acc =
      (acc.1 ++ l.filterMap (diffEntryFor nodesA nodesB),
        ⟨acc.2.added ++ l.filter (addedIdx nodesA nodesB),
         acc.2.removed ++ l.filter (removedIdx nodesA nodesB),
         acc.2.changed ++ l.filter (changedIdx nodesA nodesB)⟩) := by
  induction l with
  | nil =>
    intro acc
    simp
  | cons i l ih =>
    intro acc
    rw [List.foldl_cons, diffStep_spec, ih]
    rcases hE : diffEntryFor nodesA nodesB i with _ | e <;>
      simp [hE, List.filterMap_cons, List.filter_cons] <;>
      rcases hA : addedIdx nodesA nodesB i <;>
      rcases hR : removedIdx nodesA nodesB i <;>
      rcases hC : changedIdx nodesA nodesB i <;>
      simp [hA, hR, hC]

theorem uniqueIndices_go {α : Type} [DecidableEq α] (l : List α) : ∀ acc : List α,
    (∀ x, x ∈ l.foldl (fun acc i => if i ∈ acc then acc else acc ++ [i]) acc ↔
      x ∈ acc ∨ x ∈ l) ∧
    (acc.Nodup → (l.foldl (fun acc i => if i ∈ acc then acc else acc ++ [i]) acc).Nodup) := by
  induction l with
  | nil =>
    intro acc
    simp
  | cons i l ih =>
    intro acc
    rw [List.foldl_cons]
    by_cases hi : i ∈ acc
    · rw [if_pos hi]
      refine ⟨?_, (ih acc).2⟩
      intro x
      rw [(ih acc).1 x, List.mem_cons]
      constructor
      · tauto
      · rintro (hx | rfl | hx) <;> tauto
    · rw [if_neg hi]
      constructor
      · intro x
        rw [(ih (acc ++ [i])).1 x, List.mem_append, List.mem_singleton, List.mem_cons]
        tauto
      · intro hnd
        refine (ih (acc ++ [i])).2 ?_
        rw [List.nodup_append]
        refine ⟨hnd, List.nodup_singleton i, ?_⟩
        intro a ha hb
        rw [List.mem_singleton] at hb
        subst hb
        exact hi ha

theorem mem_uniqueIndices {α : Type} [DecidableEq α] (l : List α) (x : α) :
    x ∈ uniqueIndices l ↔ x ∈ l := by
  unfold uniqueIndices
  rw [(uniqueIndices_go l []).1 x]
  simp

theorem uniqueIndices_nodup {α : Type} [DecidableEq α] (l : List α) :
    (uniqueIndices l).Nodup :=
  (uniqueIndices_go l []).2 List.nodup_nil

theorem nodesMapGet_go (i : Nat) (ns : List TalentNodeSelection) :
    ∀ acc : Option TalentNodeSelection,
    ns.foldl (fun acc n => if n.nodeIndex = i then some n else acc) acc =
      (ns.reverse.find? (fun n => n.nodeIndex == i)).or acc := by
  induction ns with
  | nil =>
    intro acc
    simp
  | cons n ns ih =>
    intro acc
    rw [List.foldl_cons, ih, List.reverse_cons, List.find?_append]
    by_cases hn : n.nodeIndex = i
    · rw [if_pos hn]
      rw [show List.find? (fun n => n.nodeIndex == i) [n] = some n by simp [hn]]
      rw [Option.or_assoc]
      rfl
    · rw [if_neg hn]
      rw [show List.find? (fun n => n.nodeIndex == i) [n] = none by simp [hn]]
      rw [Option.or_assoc]
      rfl

theorem nodesMapGet_eq_find (ns : List TalentNodeSelection) (i : Nat) :
    nodesMapGet ns i = ns.reverse.find? (fun n => n.nodeIndex == i) := by
  unfold nodesMapGet
  rw [nodesMapGet_go]
  simp

theorem nodesMapGet_some (ns : List TalentNodeSelection) (i : Nat)
    (n : TalentNodeSelection) (h : nodesMapGet ns i = some n) :
    n ∈ ns ∧ n.nodeIndex = i := by
  rw [nodesMapGet_eq_find] at h
  have h1 := List.mem_of_find?_eq_some h
  have h2 := List.find?_some h
  rw [List.mem_reverse] at h1
  simp at h2
  exact ⟨h1, h2⟩

theorem nodesMapGet_none (ns : List TalentNodeSelection) (i : Nat) :
    nodesMapGet ns i = none ↔ ∀ n ∈ ns, n.nodeIndex ≠ i := by
  rw [nodesMapGet_eq_find, List.find?_eq_none]
  simp

theorem diffTalentBuilds_eq_ok (bA bB : ParsedTalentData) (h : bA.specId = bB.specId) :
    diffTalentBuilds bA bB = .ok ⟨bA.specId, bA.specName,
      (uniqueIndices (bA.nodes.map (fun n => n.nodeIndex) ++
        bB.nodes.map (fun n => n.nodeIndex))).filterMap (diffEntryFor bA.nodes bB.nodes),
      ⟨jsSortAsc ((uniqueIndices (bA.nodes.map (fun n => n.nodeIndex) ++
          bB.nodes.map (fun n => n.nodeIndex))).filter (addedIdx bA.nodes bB.nodes)),
       jsSortAsc ((uniqueIndices (bA.nodes.map (fun n => n.nodeIndex) ++
          bB.nodes.map (fun n => n.nodeIndex))).filter (removedIdx bA.nodes bB.nodes)),
       jsSortAsc ((uniqueIndices (bA.nodes.map (fun n => n.nodeIndex) ++
          bB.nodes.map (fun n => n.nodeIndex))).filter (changedIdx bA.nodes bB.nodes))⟩⟩ := by
  unfold diffTalentBuilds
  rw [if_neg (by simp [h])]
  dsimp only
  rw [diffFold_spec]
  simp

theorem diffTalentBuilds_ok_spec_eq (bA bB : ParsedTalentData) (res : TalentDiffResult)
    (h : diffTalentBuilds bA bB = .ok res) : bA.specId = bB.specId := by
  by_contra hne
  unfold diffTalentBuilds at h
  rw [if_pos hne] at h
  exact absurd h (by simp)

theorem getChangeDetails_isSome (a b : TalentNodeSelection) :
    (getChangeDetails a b).isSome = true ↔
      ((a.isPartiallyRanked = some true ∨ b.isPartiallyRanked = some true) ∧
        effectiveRank a ≠ effectiveRank b) ∨
      ((a.isChoiceNode = some true ∨ b.isChoiceNode = some true) ∧
        effectiveChoice a ≠ effectiveChoice b) := by
  unfold getChangeDetails
  dsimp only
  by_cases h1 : (a.isPartiallyRanked = some true ∨ b.isPartiallyRanked = some true) ∧
      effectiveRank a ≠ effectiveRank b <;>
    by_cases h2 : (a.isChoiceNode = some true ∨ b.isChoiceNode = some true) ∧
      effectiveChoice a ≠ effectiveChoice b <;>
    simp [h1, h2]

theorem selectedFlag_some (o : Option TalentNodeSelection) (h : selectedFlag o = true) :
    ∃ n, o = some n ∧ n.isSelected = true := by
  cases o with
  | none => simp [selectedFlag] at h
  | some n => exact ⟨n, rfl, h⟩

theorem diffEntryFor_added (nodesA nodesB : List TalentNodeSelection) (i : Nat)
    (hB : selectedFlag (nodesMapGet nodesB i) = true)
    (hA : selectedFlag (nodesMapGet nodesA i) = false) :
    diffEntryFor nodesA nodesB i = some ⟨i, .added, none, nodesMapGet nodesB i, none⟩ := by
  unfold diffEntryFor
  dsimp only
  rw [if_pos (by simp [hA, hB])]

theorem diffEntryFor_removed (nodesA nodesB : List TalentNodeSelection) (i : Nat)
    (hA : selectedFlag (nodesMapGet nodesA i) = true)
    (hB : selectedFlag (nodesMapGet nodesB i) = false) :
    diffEntryFor nodesA nodesB i = some ⟨i, .removed, nodesMapGet nodesA i, none, none⟩ := by
  unfold diffEntryFor
  dsimp only
  rw [if_neg (by simp [hB]), if_pos (by simp [hA, hB])]

theorem diffEntryFor_both (nodesA nodesB : List TalentNodeSelection) (i : Nat)
    (a b : TalentNodeSelection)
    (hgA : nodesMapGet nodesA i = some a) (hgB : nodesMapGet nodesB i = some b)
    (ha : a.isSelected = true) (hb : b.isSelected = true) :
    diffEntryFor nodesA nodesB i =
      (match getChangeDetails a b with
       | some cd => some ⟨i, .changed, some a, some b, some cd⟩
       | none => some ⟨i, .unchanged, some a, some b, none⟩) := by
  unfold diffEntryFor
  dsimp only
  have hA : selectedFlag (nodesMapGet nodesA i) = true := by
    rw [hgA]; exact ha
  have hB : selectedFlag (nodesMapGet nodesB i) = true := by
    rw [hgB]; exact hb
  rw [if_neg (by simp [hA]), if_neg (by simp [hB]), if_pos (by simp [hA, hB]), hgA, hgB]

theorem diffEntryFor_neither (nodesA nodesB : List TalentNodeSelection) (i : Nat)
    (hA : selectedFlag (nodesMapGet nodesA i) = false)
    (hB : selectedFlag (nodesMapGet nodesB i) = false) :
    diffEntryFor nodesA nodesB i = none := by
  unfold diffEntryFor
  dsimp only
  rw [if_neg (by simp [hB]), if_neg (by simp [hA]), if_neg (by simp [hA])]

theorem diffEntryFor_nodeIndex (nodesA nodesB : List TalentNodeSelection) (i : Nat)
    (e : TalentDiffNode) (h : diffEntryFor nodesA nodesB i = some e) :
    e.nodeIndex = i := by
  unfold diffEntryFor at h
  dsimp only at h
  split at h
  · cases h; rfl
  · split at h
    · cases h; rfl
    · split at h
      · split at h
        · split at h
          · cases h; rfl
          · cases h; rfl
        · cases h
      · cases h

/-- C1: for every pair of builds with equal specId, `diffTalentBuilds`
classifies each node index exactly as stated: `added` iff selected in B and
not in A (entry carries B's selection), `removed` iff selected in A and not in
B (entry carries A's selection), `changed` iff selected in both and the
effective rank or effective choice differs (rank compared only when a side has
`isPartiallyRanked` true, choice only when a side has `isChoiceNode` true),
`unchanged` iff selected in both with equal effective rank and choice, no
entry at all for an index selected in neither build, at most one entry per
index; an index missing from a build's list counts as not selected
(`selectedFlag`/`nodesMapGet` return the default). -/
theorem diff_classifies_each_index (bA bB : ParsedTalentData) (res : TalentDiffResult)
    (h : diffTalentBuilds bA bB = .ok res) (i : Nat) :
    ((⟨i, .added, none, nodesMapGet bB.nodes i, none⟩ : TalentDiffNode) ∈ res.diffs ↔
      selectedFlag (nodesMapGet bB.nodes i) = true ∧
        selectedFlag (nodesMapGet bA.nodes i) = false) ∧
    ((⟨i, .removed, nodesMapGet bA.nodes i, none, none⟩ : TalentDiffNode) ∈ res.diffs ↔
      selectedFlag (nodesMapGet bA.nodes i) = true ∧
        selectedFlag (nodesMapGet bB.nodes i) = false) ∧
    ((∃ cd, (⟨i, .changed, nodesMapGet bA.nodes i, nodesMapGet bB.nodes i, some cd⟩ :
        TalentDiffNode) ∈ res.diffs) ↔
      (∃ a b, nodesMapGet bA.nodes i = some a ∧ nodesMapGet bB.nodes i = some b ∧
        a.isSelected = true ∧ b.isSelected = true ∧
        (((a.isPartiallyRanked = some true ∨ b.isPartiallyRanked = some true) ∧
            effectiveRank a ≠ effectiveRank b) ∨
         ((a.isChoiceNode = some true ∨ b.isChoiceNode = some true) ∧
            effectiveChoice a ≠ effectiveChoice b)))) ∧
    ((⟨i, .unchanged, nodesMapGet bA.nodes i, nodesMapGet bB.nodes i, none⟩ :
        TalentDiffNode) ∈ res.diffs ↔
      (∃ a b, nodesMapGet bA.nodes i = some a ∧ nodesMapGet bB.nodes i = some b ∧
        a.isSelected = true ∧ b.isSelected = true ∧
        ¬(((a.isPartiallyRanked = some true ∨ b.isPartiallyRanked = some true) ∧
            effectiveRank a ≠ effectiveRank b) ∨
          ((a.isChoiceNode = some true ∨ b.isChoiceNode = some true) ∧
            effectiveChoice a ≠ effectiveChoice b)))) ∧
    (selectedFlag (nodesMapGet bA.nodes i) = false →
      selectedFlag (nodesMapGet bB.nodes i) = false →
      ∀ e ∈ res.diffs, e.nodeIndex ≠ i) ∧
    (∀ e1 ∈ res.diffs, ∀ e2 ∈ res.diffs, e1.nodeIndex = i → e2.nodeIndex = i → e1 = e2) := by
  have hspec := diffTalentBuilds_ok_spec_eq bA bB res h
  rw [diffTalentBuilds_eq_ok bA bB hspec] at h
  simp only [Except.ok.injEq] at h
  subst h
  dsimp only
  have hmem : ∀ e : TalentDiffNode,
      e ∈ (uniqueIndices (bA.nodes.map (fun n => n.nodeIndex) ++
          bB.nodes.map (fun n => n.nodeIndex))).filterMap
            (diffEntryFor bA.nodes bB.nodes) ↔
        ∃ j, j ∈ uniqueIndices (bA.nodes.map (fun n => n.nodeIndex) ++
          bB.nodes.map (fun n => n.nodeIndex)) ∧
          diffEntryFor bA.nodes bB.nodes j = some e := by
    intro e
    rw [List.mem_filterMap]
  have hpresA : selectedFlag (nodesMapGet bA.nodes i) = true →
      i ∈ uniqueIndices (bA.nodes.map (fun n => n.nodeIndex) ++
        bB.nodes.map (fun n => n.nodeIndex)) := by
    intro hs
    obtain ⟨a, hga, _⟩ := selectedFlag_some _ hs
    obtain ⟨hma, hia⟩ := nodesMapGet_some _ _ _ hga
    rw [mem_uniqueIndices, List.mem_append]
    exact Or.inl (List.mem_map.2 ⟨a, hma, hia⟩)
  have hpresB : selectedFlag (nodesMapGet bB.nodes i) = true →
      i ∈ uniqueIndices (bA.nodes.map (fun n => n.nodeIndex) ++
        bB.nodes.map (fun n => n.nodeIndex)) := by
    intro hs
    obtain ⟨b, hgb, _⟩ := selectedFlag_some _ hs
    obtain ⟨hmb, hib⟩ := nodesMapGet_some _ _ _ hgb
    rw [mem_uniqueIndices, List.mem_append]
    exact Or.inr (List.mem_map.2 ⟨b, hmb, hib⟩)
  have hOnly : ∀ e : TalentDiffNode, e.nodeIndex = i →
      (e ∈ (uniqueIndices (bA.nodes.map (fun n => n.nodeIndex) ++
          bB.nodes.map (fun n => n.nodeIndex))).filterMap
            (diffEntryFor bA.nodes bB.nodes) ↔
        (i ∈ uniqueIndices (bA.nodes.map (fun n => n.nodeIndex) ++
          bB.nodes.map (fun n => n.nodeIndex)) ∧
          diffEntryFor bA.nodes bB.nodes i = some e)) := by
    intro e hei
    rw [hmem e]
    constructor
    · rintro ⟨j, hj, hje⟩
      have := diffEntryFor_nodeIndex _ _ _ _ hje
      rw [hei] at this
      subst this
      exact ⟨hj, hje⟩
    · rintro ⟨hj, hje⟩
      exact ⟨i, hj, hje⟩
  refine ⟨?_, ?_, ?_, ?_, ?_, ?_⟩
  · rw [hOnly _ rfl]
    constructor
    · rintro ⟨-, hje⟩
      rcases hsA : selectedFlag (nodesMapGet bA.nodes i) <;>
        rcases hsB : selectedFlag (nodesMapGet bB.nodes i)
      · rw [diffEntryFor_neither _ _ _ hsA hsB] at hje
        exact absurd hje (by simp)
      · exact ⟨rfl, rfl⟩
      · rw [diffEntryFor_removed _ _ _ hsA hsB] at hje
        simp at hje
      · obtain ⟨a, hga, ha⟩ := selectedFlag_some _ hsA
        obtain ⟨b, hgb, hb⟩ := selectedFlag_some _ hsB
        rw [diffEntryFor_both _ _ _ a b hga hgb ha hb] at hje
        rcases hcd : getChangeDetails a b with _ | cd <;> rw [hcd] at hje <;> simp at hje
    · rintro ⟨hB, hA⟩
      exact ⟨hpresB hB, diffEntryFor_added _ _ _ hB hA⟩
  · rw [hOnly _ rfl]
    constructor
    · rintro ⟨-, hje⟩
      rcases hsA : selectedFlag (nodesMapGet bA.nodes i) <;>
        rcases hsB : selectedFlag (nodesMapGet bB.nodes i)
      · rw [diffEntryFor_neither _ _ _ hsA hsB] at hje
        exact absurd hje (by simp)
      · rw [diffEntryFor_added _ _ _ hsB hsA] at hje
        simp at hje
      · exact ⟨rfl, rfl⟩
      · obtain ⟨a, hga, ha⟩ := selectedFlag_some _ hsA
        obtain ⟨b, hgb, hb⟩ := selectedFlag_some _ hsB
        rw [diffEntryFor_both _ _ _ a b hga hgb ha hb] at hje
        rcases hcd : getChangeDetails a b with _ | cd <;> rw [hcd] at hje <;> simp at hje
    · rintro ⟨hA, hB⟩
      exact ⟨hpresA hA, diffEntryFor_removed _ _ _ hA hB⟩
  · constructor
    · rintro ⟨cd, hm⟩
      rw [hOnly _ rfl] at hm
      obtain ⟨-, hje⟩ := hm
      rcases hsA : selectedFlag (nodesMapGet bA.nodes i) <;>
        rcases hsB : selectedFlag (nodesMapGet bB.nodes i)
      · rw [diffEntryFor_neither _ _ _ hsA hsB] at hje
        exact absurd hje (by simp)
      · rw [diffEntryFor_added _ _ _ hsB hsA] at hje
        simp at hje
      · rw [diffEntryFor_removed _ _ _ hsA hsB] at hje
        simp at hje
      · obtain ⟨a, hga, ha⟩ := selectedFlag_some _ hsA
        obtain ⟨b, hgb, hb⟩ := selectedFlag_some _ hsB
        rw [diffEntryFor_both _ _ _ a b hga hgb ha hb] at hje
        rcases hcd : getChangeDetails a b with _ | cd' <;> rw [hcd] at hje
        · simp at hje
        · refine ⟨a, b, hga, hgb, ha, hb, ?_⟩
          rw [← getChangeDetails_isSome a b, hcd]
          rfl
    · rintro ⟨a, b, hga, hgb, ha, hb, hcond⟩
      have hsome : (getChangeDetails a b).isSome = true :=
        (getChangeDetails_isSome a b).2 hcond
      obtain ⟨cd, hcd⟩ := Option.isSome_iff_exists.1 hsome
      refine ⟨cd, ?_⟩
      rw [hOnly _ rfl]
      refine ⟨hpresA (by rw [hga]; exact ha), ?_⟩
      rw [diffEntryFor_both _ _ _ a b hga hgb ha hb, hcd, hga, hgb]
  · rw [hOnly _ rfl]
    constructor
    · rintro ⟨-, hje⟩
      rcases hsA : selectedFlag (nodesMapGet bA.nodes i) <;>
        rcases hsB : selectedFlag (nodesMapGet bB.nodes i)
      · rw [diffEntryFor_neither _ _ _ hsA hsB] at hje
        exact absurd hje (by simp)
      · rw [diffEntryFor_added _ _ _ hsB hsA] at hje
        simp at hje
      · rw [diffEntryFor_removed _ _ _ hsA hsB] at hje
        simp at hje
      · obtain ⟨a, hga, ha⟩ := selectedFlag_some _ hsA
        obtain ⟨b, hgb, hb⟩ := selectedFlag_some _ hsB
        rw [diffEntryFor_both _ _ _ a b hga hgb ha hb] at hje
        rcases hcd : getChangeDetails a b with _ | cd' <;> rw [hcd] at hje
        · refine ⟨a, b, hga, hgb, ha, hb, ?_⟩
          intro hcond
          have := (getChangeDetails_isSome a b).2 hcond
          rw [hcd] at this
          simp at this
        · simp at hje
    · rintro ⟨a, b, hga, hgb, ha, hb, hcond⟩
      have hnone : getChangeDetails a b = none := by
        rcases hop : getChangeDetails a b with _ | cd'
        · rfl
        · exact absurd ((getChangeDetails_isSome a b).1 (by rw [hop]; rfl)) hcond
      refine ⟨hpresA (by rw [hga]; exact ha), ?_⟩
      rw [diffEntryFor_both _ _ _ a b hga hgb ha hb, hnone, hga, hgb]
  · intro hA hB e hm hei
    rw [hmem e] at hm
    obtain ⟨j, -, hje⟩ := hm
    have := diffEntryFor_nodeIndex _ _ _ _ hje
    rw [hei] at this
    subst this
    rw [diffEntryFor_neither _ _ _ hA hB] at hje
    exact absurd hje (by simp)
  · intro e1 hm1 e2 hm2 h1 h2
    rw [hOnly _ h1] at hm1
    rw [hOnly _ h2] at hm2
    have := hm1.2.symm.trans hm2.2
    exact Option.some.inj this

theorem mem_insertSorted (x a : Nat) (l : List Nat) :
    x ∈ insertSorted a l ↔ x = a ∨ x ∈ l := by
  induction l with
  | nil => simp [insertSorted]
  | cons y ys ih =>
    unfold insertSorted
    by_cases hxy : a ≤ y
    · rw [if_pos hxy]
      simp [List.mem_cons]
    · rw [if_neg hxy]
      simp [List.mem_cons, ih]
      tauto

theorem mem_jsSortAsc (x : Nat) (l : List Nat) : x ∈ jsSortAsc l ↔ x ∈ l := by
  unfold jsSortAsc
  induction l with
  | nil => simp
  | cons y ys ih =>
    rw [List.foldr_cons, mem_insertSorted, List.mem_cons, ih]

/-- Fixture build A for witnesses: nodes 0 (selected), 1 (selected), 2 (not
selected), 3 (selected, partially ranked 1), 4 (not selected). -/
def wBuildA : ParsedTalentData := ⟨2, 254, some "Marksmanship Hunter", "h",
  [⟨0, true, some true, some false, none, some false, none⟩,
   ⟨1, true, some true, some false, none, some false, none⟩,
   ⟨2, false, none, none, none, none, none⟩,
   ⟨3, true, some true, some true, some 1, some false, none⟩,
   ⟨4, false, none, none, none, none, none⟩], []⟩

/-- Fixture build B for witnesses: node 1 dropped, node 2 picked up, node 3 at
rank 2 instead of 1. -/
def wBuildB : ParsedTalentData := ⟨2, 254, some "Marksmanship Hunter", "h",
  [⟨0, true, some true, some false, none, some false, none⟩,
   ⟨1, false, none, none, none, none, none⟩,
   ⟨2, true, some true, some false, none, some false, none⟩,
   ⟨3, true, some true, some true, some 2, some false, none⟩,
   ⟨4, false, none, none, none, none, none⟩], []⟩

/-- `diffTalentBuilds wBuildA wBuildB`. -/
def wDiffAB : TalentDiffResult := ⟨254, some "Marksmanship Hunter",
  [⟨0, .unchanged, some ⟨0, true, some true, some false, none, some false, none⟩,
      some ⟨0, true, some true, some false, none, some false, none⟩, none⟩,
   ⟨1, .removed, some ⟨1, true, some true, some false, none, some false, none⟩, none, none⟩,
   ⟨2, .added, none, some ⟨2, true, some true, some false, none, some false, none⟩, none⟩,
   ⟨3, .changed, some ⟨3, true, some true, some true, some 1, some false, none⟩,
      some ⟨3, true, some true, some true, some 2, some false, none⟩,
      some ⟨some (1, 2), none⟩⟩],
  ⟨[2], [1], [3]⟩⟩

/-- `diffTalentBuilds wBuildB wBuildA`. -/
def wDiffBA : TalentDiffResult := ⟨254, some "Marksmanship Hunter",
  [⟨0, .unchanged, some ⟨0, true, some true, some false, none, some false, none⟩,
      some ⟨0, true, some true, some false, none, some false, none⟩, none⟩,
   ⟨1, .added, none, some ⟨1, true, some true, some false, none, some false, none⟩, none⟩,
   ⟨2, .removed, some ⟨2, true, some true, some false, none, some false, none⟩, none, none⟩,
   ⟨3, .changed, some ⟨3, true, some true, some true, some 2, some false, none⟩,
      some ⟨3, true, some true, some true, some 1, some false, none⟩,
      some ⟨some (2, 1), none⟩⟩],
  ⟨[1], [2], [3]⟩⟩

theorem diff_classifies_each_index_witness :
    (⟨2, .added, none, nodesMapGet wBuildB.nodes 2, none⟩ : TalentDiffNode) ∈ wDiffAB.diffs ↔
      selectedFlag (nodesMapGet wBuildB.nodes 2) = true ∧
        selectedFlag (nodesMapGet wBuildA.nodes 2) = false :=
  (diff_classifies_each_index wBuildA wBuildB wDiffAB (by decide) 2).1

/-- C8: the diff is antisymmetric in its summaries:
`diff(A,B).summary.added = diff(B,A).summary.removed` as sets, and vice
versa. -/
theorem diff_antisymmetric_summaries (bA bB : ParsedTalentData)
    (r1 r2 : TalentDiffResult)
    (h1 : diffTalentBuilds bA bB = .ok r1) (h2 : diffTalentBuilds bB bA = .ok r2) :
    (∀ i, i ∈ r1.summary.added ↔ i ∈ r2.summary.removed) ∧
    (∀ i, i ∈ r1.summary.removed ↔ i ∈ r2.summary.added) := by
  have hs1 := diffTalentBuilds_ok_spec_eq _ _ _ h1
  rw [diffTalentBuilds_eq_ok bA bB hs1] at h1
  rw [diffTalentBuilds_eq_ok bB bA hs1.symm] at h2
  simp only [Except.ok.injEq] at h1 h2
  subst h1
  subst h2
  dsimp only
  constructor <;> intro i <;>
    rw [mem_jsSortAsc, mem_jsSortAsc, List.mem_filter, List.mem_filter,
      mem_uniqueIndices, mem_uniqueIndices, List.mem_append, List.mem_append]
  · rw [show removedIdx bB.nodes bA.nodes i = addedIdx bA.nodes bB.nodes i from rfl]
    tauto
  · rw [show addedIdx bB.nodes bA.nodes i = removedIdx bA.nodes bB.nodes i from rfl]
    tauto

theorem diff_antisymmetric_summaries_witness :
    (∀ i, i ∈ wDiffAB.summary.added ↔ i ∈ wDiffBA.summary.removed) ∧
    (∀ i, i ∈ wDiffAB.summary.removed ↔ i ∈ wDiffBA.summary.added) :=
  diff_antisymmetric_summaries wBuildA wBuildB wDiffAB wDiffBA (by decide) (by decide)

theorem decodeLoop_invalid (outputLength : Nat) (cs : List Char) :
    ∀ st : DecodeState, (∃ c ∈ cs, base64Lookup c = none) →
    ∃ c, decodeLoop outputLength cs st = .error (.invalidCharacter c) ∧
      c ∈ cs ∧ base64Lookup c = none := by
  induction cs with
  | nil =>
    intro st h
    simp at h
  | cons c cs ih =>
    intro st h
    unfold decodeLoop
    cases hl : base64Lookup c with
    | none => exact ⟨c, rfl, by simp, hl⟩
    | some v =>
      obtain ⟨c', hc', hl'⟩ := h
      have hcs : c' ∈ cs := by
        rcases List.mem_cons.1 hc' with rfl | h2
        · rw [hl] at hl'
          cases hl'
        · exact h2
      obtain ⟨c'', h1, h2, h3⟩ := ih _ ⟨c', hcs, hl'⟩
      exact ⟨c'', h1, by simp [h2], h3⟩

theorem decodeBase64_invalid (input : List Char)
    (h : ∃ c ∈ input, jsWhitespace c = false ∧ base64Lookup c = none) :
    ∃ c, decodeBase64 input = .error (.invalidCharacter c) ∧
      c ∈ input ∧ jsWhitespace c = false ∧ base64Lookup c = none := by
  obtain ⟨c, hc, hws, hl⟩ := h
  have hcf : c ∈ input.filter (fun c => !jsWhitespace c) :=
    List.mem_filter.2 ⟨hc, by simp [hws]⟩
  obtain ⟨c'', h1, h2, h3⟩ := decodeLoop_invalid
    ((input.filter (fun c => !jsWhitespace c)).length * 6 / 8)
    (input.filter (fun c => !jsWhitespace c)) ⟨[], 0, 0⟩ ⟨c, hcf, hl⟩
  refine ⟨c'', ?_, ?_, ?_, h3⟩
  · unfold decodeBase64
    dsimp only
    rw [h1]
  · exact List.mem_of_mem_filter h2
  · have := (List.mem_filter.1 h2).2
    simpa using this

/-- C3: the core has exactly three failure modes, each raised under its
stated condition with the stated content, and no core operation fails
otherwise: `parseTalentString` raises `invalidCharacter` carrying an
offending character when a non-whitespace character is outside the alphabet;
it raises `tooShort` carrying the decoded byte length when that length is
below 19; otherwise it returns normally; `diffTalentBuilds` raises
`specMismatch` carrying both display names (numeric ids when a name is
absent) exactly when the spec ids differ, and returns normally otherwise. -/
theorem core_failure_modes (s : String) (bA bB : ParsedTalentData) :
    ((∃ c ∈ s.data, jsWhitespace c = false ∧ base64Lookup c = none) →
      ∃ c, parseTalentString s = .error (.invalidCharacter c) ∧
        c ∈ s.data ∧ jsWhitespace c = false ∧ base64Lookup c = none) ∧
    ((∀ c ∈ s.data, jsWhitespace c = false → (base64Lookup c).isSome = true) →
      (s.data.filter (fun c => !jsWhitespace c)).length * 6 / 8 < 19 →
      parseTalentString s = .error
        (.tooShort ((s.data.filter (fun c => !jsWhitespace c)).length * 6 / 8))) ∧
    ((∀ c ∈ s.data, jsWhitespace c = false → (base64Lookup c).isSome = true) →
      19 ≤ (s.data.filter (fun c => !jsWhitespace c)).length * 6 / 8 →
      (parseTalentString s).isOk = true) ∧
    (bA.specId ≠ bB.specId →
      diffTalentBuilds bA bB = .error (.specMismatch (jsDisplay bA) (jsDisplay bB))) ∧
    (bA.specId = bB.specId → (diffTalentBuilds bA bB).isOk = true) := by
  refine ⟨?_, ?_, ?_, ?_, ?_⟩
  · rintro ⟨c, hc, hws, hl⟩
    have hmem : c ∈ jsTrim s.data := by
      have : c ∈ (jsTrim s.data).filter (fun c => !jsWhitespace c) := by
        rw [filter_jsTrim]
        exact List.mem_filter.2 ⟨hc, by simp [hws]⟩
      exact List.mem_of_mem_filter this
    obtain ⟨c'', h1, h2, h3, h4⟩ := decodeBase64_invalid (jsTrim s.data) ⟨c, hmem, hws, hl⟩
    refine ⟨c'', ?_, jsTrim_subset _ _ h2, h3, h4⟩
    unfold parseTalentString
    rw [h1]
  · intro hvalid hshort
    have hvalid2 : ∀ c ∈ jsTrim s.data, jsWhitespace c = false →
        (base64Lookup c).isSome = true :=
      fun c hc => hvalid c (jsTrim_subset _ _ hc)
    obtain ⟨out, hdec, hlen, _⟩ := decodeBase64_valid_bits (jsTrim s.data) hvalid2
    rw [filter_jsTrim] at hlen
    unfold parseTalentString
    rw [hdec]
    dsimp only
    rw [if_pos (by omega), hlen]
  · intro hvalid hlong
    obtain ⟨d, hd, -, -⟩ := parse_terminates_bound s hvalid hlong
    rw [hd]
    rfl
  · intro hne
    unfold diffTalentBuilds
    rw [if_pos hne]
  · intro heq
    rw [diffTalentBuilds_eq_ok bA bB heq]
    rfl

/-- One entry of a topology node (`TalentEntryData` in data/types.ts). -/
structure TalentEntryData where
  id : Nat
  definitionId : Nat
  spellId : Nat
  name : String
  iconId : Nat
  maxRanks : Nat
  entryIndex : Nat
deriving Repr, DecidableEq

/-- A topology node (`TalentNodeData` in data/types.ts). -/
structure TalentNodeData where
  id : Nat
  posX : Int
  posY : Int
  type : Nat
  maxRanks : Nat
  entries : List TalentEntryData
  allowedSpecs : Option (List Nat)
deriving Repr, DecidableEq

/-- The `${posX},${posY}` map key of `deduplicateOverlappingNodes` (the string
rendering of a number pair is injective, so the pair itself is the key). -/
def nodeKey (n : TalentNodeData) : Int × Int := (n.posX, n.posY)

/-- The per-position body of the `for (const nodesAtPos of
nodesByPosition.values())` loop: pass singletons through, keep mixed
collisions whole, otherwise prefer the selected hero tree member and fall
back to the first member. -/
def keepAtPosition (selectedHeroNodeIds heroTreeNodeIds : List Nat)
    (nodesAtPos : List TalentNodeData) : List TalentNodeData :=
  if nodesAtPos.length = 1 then nodesAtPos
  else if ¬ nodesAtPos.all (fun n => heroTreeNodeIds.contains n.id) then nodesAtPos
  else
    match nodesAtPos.find? (fun n => selectedHeroNodeIds.contains n.id) with
    | some n => [n]
    | none => nodesAtPos.take 1

/-- `deduplicateOverlappingNodes` from nodeFiltering.ts: group by exact
position (map iteration follows first-occurrence key order, each group keeps
input order) and keep per the hero-tree rules.  The JS `Set` arguments are
modelled as id lists queried with `contains`. -/
def deduplicateOverlappingNodes (nodes : List TalentNodeData)
    (selectedHeroNodeIds heroTreeNodeIds : List Nat) : List TalentNodeData :=
  ((uniqueIndices (nodes.map nodeKey)).map
    (fun k => keepAtPosition selectedHeroNodeIds heroTreeNodeIds
      (nodes.filter (fun n => nodeKey n = k)))).flatten

theorem keepAtPosition_sublist (sel hero : List Nat) (g : List TalentNodeData) :
    (keepAtPosition sel hero g).Sublist g := by
  unfold keepAtPosition
  split
  · exact List.Sublist.refl g
  · split
    · exact List.Sublist.refl g
    · split
      · next n hn => exact List.singleton_sublist.2 (List.mem_of_find?_eq_some hn)
      · exact List.take_sublist _ _

theorem keepAtPosition_ne_nil (sel hero : List Nat) (g : List TalentNodeData)
    (hg : g ≠ []) : keepAtPosition sel hero g ≠ [] := by
  unfold keepAtPosition
  split
  · exact hg
  · split
    · exact hg
    · split
      · simp
      · cases g with
        | nil => exact absurd rfl hg
        | cons a g => simp [List.take]

theorem mem_dedup_iff (nodes : List TalentNodeData) (sel hero : List Nat)
    (x : TalentNodeData) :
    x ∈ deduplicateOverlappingNodes nodes sel hero ↔
      ∃ k ∈ uniqueIndices (nodes.map nodeKey),
        x ∈ keepAtPosition sel hero (nodes.filter (fun n => nodeKey n = k)) := by
  unfold deduplicateOverlappingNodes
  rw [List.mem_flatten]
  constructor
  · rintro ⟨l, hl, hx⟩
    obtain ⟨k, hk, rfl⟩ := List.mem_map.1 hl
    exact ⟨k, hk, hx⟩
  · rintro ⟨k, hk, hx⟩
    exact ⟨_, List.mem_map.2 ⟨k, hk, rfl⟩, hx⟩

theorem filter_flatten_single (f : Int × Int → List TalentNodeData)
    (p : TalentNodeData → Bool) (k : Int × Int) :
    ∀ K : List (Int × Int), K.Nodup → k ∈ K →
    (∀ x ∈ f k, p x = true) →
    (∀ k' ∈ K, k' ≠ k → ∀ x ∈ f k', p x = false) →
    ((K.map f).flatten).filter p = f k := by
  intro K
  induction K with
  | nil =>
    intro _ hk
    simp at hk
  | cons k' K ih =>
    intro hnd hk hall hnone
    rw [List.map_cons, List.flatten_cons, List.filter_append]
    by_cases hkk : k' = k
    · subst hkk
      rw [List.filter_eq_self.2 hall]
      have hrest : ((K.map f).flatten).filter p = [] := by
        rw [List.filter_eq_nil_iff]
        intro x hx
        rw [List.mem_flatten] at hx
        obtain ⟨l, hl, hxl⟩ := hx
        obtain ⟨k2, hk2, rfl⟩ := List.mem_map.1 hl
        have hk2ne : k2 ≠ k' := by
          rintro rfl
          exact (List.nodup_cons.1 hnd).1 hk2
        simp [hnone k2 (by simp [hk2]) hk2ne x hxl]
      rw [hrest, List.append_nil]
    · have hkK : k ∈ K := by
        rcases List.mem_cons.1 hk with rfl | h
        · exact absurd rfl hkk
        · exact h
      have hfirst : (f k').filter p = [] := by
        rw [List.filter_eq_nil_iff]
        intro x hx
        simp [hnone k' (by simp) (fun h => hkk h) x hx]
      rw [hfirst, List.nil_append]
      exact ih (List.nodup_cons.1 hnd).2 hkK hall
        (fun k2 hk2 => hnone k2 (by simp [hk2]))

theorem dedup_filter_key (nodes : List TalentNodeData) (sel hero : List Nat)
    (k : Int × Int) (hk : k ∈ nodes.map nodeKey) :
    (deduplicateOverlappingNodes nodes sel hero).filter (fun n => nodeKey n = k) =
      keepAtPosition sel hero (nodes.filter (fun n => nodeKey n = k)) := by
  unfold deduplicateOverlappingNodes
  refine filter_flatten_single _ _ k _ (uniqueIndices_nodup _)
    ((mem_uniqueIndices _ _).2 hk) ?_ ?_
  · intro x hx
    have hxg := (keepAtPosition_sublist sel hero _).subset hx
    have := (List.mem_filter.1 hxg).2
    simpa using this
  · intro k' _ hne x hx
    have hxg := (keepAtPosition_sublist sel hero _).subset hx
    have hk' := (List.mem_filter.1 hxg).2
    simp at hk'
    simp [hk']
    exact hne

theorem find?_of_filter_singleton (p : TalentNodeData → Bool)
    (g : List TalentNodeData) (a : TalentNodeData) (h : g.filter p = [a]) :
    g.find? p = some a := by
  induction g with
  | nil => simp at h
  | cons x g ih =>
    rw [List.filter_cons] at h
    by_cases hp : p x
    · rw [if_pos hp] at h
      rw [List.find?_cons_of_pos _ hp]
      simp at h
      rw [h.1]
    · rw [if_neg hp] at h
      rw [List.find?_cons_of_neg _ hp]
      exact ih h

/-- C7: `deduplicateOverlappingNodes` groups nodes by exact position and, per
group: singletons pass through; a group with a member outside the branch
(hero) id set is kept whole; an all-branch group keeps the unique active
(selected-hero) member when exactly one exists, else its first member; for
two co-located nodes, one active and both branch members, the survivor is the
active node under either input order; every kept node is an input node
unmodified. -/
theorem overlap_resolution_rules (nodes : List TalentNodeData) (sel hero : List Nat)
    (k : Int × Int) (hk : k ∈ nodes.map nodeKey) :
    ((nodes.filter (fun n => nodeKey n = k)).length = 1 →
      (deduplicateOverlappingNodes nodes sel hero).filter (fun n => nodeKey n = k) =
        nodes.filter (fun n => nodeKey n = k)) ∧
    (2 ≤ (nodes.filter (fun n => nodeKey n = k)).length →
      (∃ n ∈ nodes.filter (fun n => nodeKey n = k), hero.contains n.id = false) →
      (deduplicateOverlappingNodes nodes sel hero).filter (fun n => nodeKey n = k) =
        nodes.filter (fun n => nodeKey n = k)) ∧
    (2 ≤ (nodes.filter (fun n => nodeKey n = k)).length →
      (∀ n ∈ nodes.filter (fun n => nodeKey n = k), hero.contains n.id = true) →
      ∀ a, (nodes.filter (fun n => nodeKey n = k)).filter
          (fun n => sel.contains n.id) = [a] →
        (deduplicateOverlappingNodes nodes sel hero).filter (fun n => nodeKey n = k) =
          [a]) ∧
    (2 ≤ (nodes.filter (fun n => nodeKey n = k)).length →
      (∀ n ∈ nodes.filter (fun n => nodeKey n = k), hero.contains n.id = true) →
      (∀ n ∈ nodes.filter (fun n => nodeKey n = k), sel.contains n.id = false) →
      (deduplicateOverlappingNodes nodes sel hero).filter (fun n => nodeKey n = k) =
        (nodes.filter (fun n => nodeKey n = k)).take 1) ∧
    (∀ n ∈ deduplicateOverlappingNodes nodes sel hero, n ∈ nodes) ∧
    (∀ a b : TalentNodeData, nodeKey a = nodeKey b →
      sel.contains a.id = true → sel.contains b.id = false →
      hero.contains a.id = true → hero.contains b.id = true →
      deduplicateOverlappingNodes [a, b] sel hero = [a] ∧
      deduplicateOverlappingNodes [b, a] sel hero = [a]) := by
  refine ⟨?_, ?_, ?_, ?_, ?_, ?_⟩
  · intro hlen
    rw [dedup_filter_key nodes sel hero k hk]
    unfold keepAtPosition
    rw [if_pos hlen]
  · intro hlen hmix
    rw [dedup_filter_key nodes sel hero k hk]
    unfold keepAtPosition
    rw [if_neg (by omega)]
    rw [if_pos ?_]
    obtain ⟨n, hn, hfalse⟩ := hmix
    intro hall
    rw [List.all_eq_true] at hall
    have := hall n hn
    rw [hfalse] at this
    cases this
  · intro hlen hall a hone
    rw [dedup_filter_key nodes sel hero k hk]
    unfold keepAtPosition
    rw [if_neg (by omega)]
    rw [if_neg (by
      intro hc
      exact hc (List.all_eq_true.2 hall))]
    rw [find?_of_filter_singleton _ _ a hone]
  · intro hlen hall hnone
    rw [dedup_filter_key nodes sel hero k hk]
    unfold keepAtPosition
    rw [if_neg (by omega)]
    rw [if_neg (by
      intro hc
      exact hc (List.all_eq_true.2 hall))]
    rw [List.find?_eq_none.2 (fun n hn => by simpa using hnone n hn)]
  · intro n hn
    rw [mem_dedup_iff] at hn
    obtain ⟨k', _, hx⟩ := hn
    exact List.mem_of_mem_filter ((keepAtPosition_sublist sel hero _).subset hx)
  · intro a b hab hsa hsb hha hhb
    have hsa2 : a.id ∈ sel := by simpa using hsa
    have hsb2 : b.id ∉ sel := by simpa using hsb
    have hmap1 : List.map nodeKey [a, b] = [nodeKey a, nodeKey a] := by
      simp [← hab]
    have hmap2 : List.map nodeKey [b, a] = [nodeKey a, nodeKey a] := by
      simp [← hab]
    have huniq : uniqueIndices [nodeKey a, nodeKey a] = [nodeKey a] := by
      simp [uniqueIndices]
    have hfilter1 : List.filter (fun n => nodeKey n = nodeKey a) [a, b] = [a, b] := by
      simp [← hab]
    have hfilter2 : List.filter (fun n => nodeKey n = nodeKey a) [b, a] = [b, a] := by
      simp [← hab]
    constructor
    · unfold deduplicateOverlappingNodes
      rw [hmap1, huniq, List.map_singleton, List.flatten, hfilter1]
      unfold keepAtPosition
      rw [if_neg (by simp)]
      rw [if_neg (by
        intro hc
        apply hc
        simp only [List.all_cons, List.all_nil, Bool.and_true]
        rw [hha, hhb]
        rfl)]
      simp [List.find?_cons, hsa2, hsb2]
    · unfold deduplicateOverlappingNodes
      rw [hmap2, huniq, List.map_singleton, List.flatten, hfilter2]
      unfold keepAtPosition
      rw [if_neg (by simp)]
      rw [if_neg (by
        intro hc
        apply hc
        simp only [List.all_cons, List.all_nil, Bool.and_true]
        rw [hha, hhb]
        rfl)]
      simp [List.find?_cons, hsa2, hsb2]

/-- The two overlapping hero-tree fixture nodes from the repository's own
regression test (ids 103957 and 109321 at position (13800, 3300)). -/
def wNodeA : TalentNodeData := ⟨103957, 13800, 3300, 2, 1, [], none⟩

def wNodeB : TalentNodeData := ⟨109321, 13800, 3300, 0, 1, [], none⟩

theorem overlap_resolution_rules_witness :
    (deduplicateOverlappingNodes [wNodeA, wNodeB] [103957] [103957, 109321]).filter
      (fun n => nodeKey n = ((13800 : Int), (3300 : Int))) = [wNodeA] :=
  (overlap_resolution_rules [wNodeA, wNodeB] [103957] [103957, 109321]
      ((13800 : Int), (3300 : Int)) (by decide)).2.2.1
    (by decide) (by decide) wNodeA (by decide)

/-- C10: the output of `deduplicateOverlappingNodes` is drawn entirely from
its input — every output node is an input node, no node appears more often
than in the input — and no position is emptied: every input position keeps at
least one node in the output. -/
theorem dedup_output_from_input (nodes : List TalentNodeData) (sel hero : List Nat) :
    (∀ x ∈ deduplicateOverlappingNodes nodes sel hero, x ∈ nodes) ∧
    (∀ x : TalentNodeData,
      (deduplicateOverlappingNodes nodes sel hero).count x ≤ nodes.count x) ∧
    (∀ n ∈ nodes, ∃ m ∈ deduplicateOverlappingNodes nodes sel hero,
      nodeKey m = nodeKey n) := by
  refine ⟨?_, ?_, ?_⟩
  · intro x hx
    rw [mem_dedup_iff] at hx
    obtain ⟨k, _, hk⟩ := hx
    exact List.mem_of_mem_filter ((keepAtPosition_sublist sel hero _).subset hk)
  · intro x
    unfold deduplicateOverlappingNodes
    have key : ∀ K : List (Int × Int), K.Nodup →
        ((K.map (fun k => keepAtPosition sel hero
          (nodes.filter (fun n => nodeKey n = k)))).flatten).count x ≤
          (if nodeKey x ∈ K then nodes.count x else 0) := by
      intro K
      induction K with
      | nil => simp
      | cons k K ih =>
        intro hnd
        rw [List.map_cons, List.flatten_cons, List.count_append]
        have h1 : (keepAtPosition sel hero
            (nodes.filter (fun n => nodeKey n = k))).count x ≤
            (nodes.filter (fun n => nodeKey n = k)).count x :=
          (keepAtPosition_sublist sel hero _).count_le x
        have h3 := ih (List.nodup_cons.1 hnd).2
        by_cases hxk : nodeKey x = k
        · have h2 : (nodes.filter (fun n => nodeKey n = k)).count x = nodes.count x :=
            List.count_filter (by simp [hxk])
          have hnK : nodeKey x ∉ K := by
            rw [hxk]
            exact (List.nodup_cons.1 hnd).1
          rw [if_neg hnK] at h3
          rw [if_pos (by simp [hxk])]
          omega
        · have h2 : (nodes.filter (fun n => nodeKey n = k)).count x = 0 := by
            rw [List.count_eq_zero]
            intro hmem
            exact hxk (by simpa using (List.mem_filter.1 hmem).2)
          by_cases hK : nodeKey x ∈ K
          · rw [if_pos hK] at h3
            rw [if_pos (by simp [hK])]
            omega
          · rw [if_neg hK] at h3
            rw [if_neg (by simp [hxk, hK])]
            omega
    have := key (uniqueIndices (nodes.map nodeKey)) (uniqueIndices_nodup _)
    by_cases hmem : nodeKey x ∈ uniqueIndices (nodes.map nodeKey)
    · rw [if_pos hmem] at this
      exact this
    · rw [if_neg hmem] at this
      omega
  · intro n hn
    have hknodes : nodeKey n ∈ nodes.map nodeKey := List.mem_map.2 ⟨n, hn, rfl⟩
    have hne : nodes.filter (fun m => nodeKey m = nodeKey n) ≠ [] := by
      intro hnil
      have : n ∈ nodes.filter (fun m => nodeKey m = nodeKey n) :=
        List.mem_filter.2 ⟨hn, by simp⟩
      rw [hnil] at this
      simp at this
    obtain ⟨m, hm⟩ := List.exists_mem_of_ne_nil _
      (keepAtPosition_ne_nil sel hero _ hne)
    refine ⟨m, ?_, ?_⟩
    · rw [mem_dedup_iff]
      exact ⟨nodeKey n, (mem_uniqueIndices _ _).2 hknodes, hm⟩
    · have := (List.mem_filter.1 ((keepAtPosition_sublist sel hero _).subset hm)).2
      simpa using this

/-- An edge of the topology (`TalentEdgeData` in data/types.ts). -/
structure TalentEdgeData where
  fromNodeId : Nat
  toNodeId : Nat
  type : Nat
deriving Repr, DecidableEq

/-- The neighbour set `adjacency.get(id)` built by TalentTreeView: the map is
keyed by the node ids, and each edge adds its far end to the near end's set
when the near end is a key (in edge order, first occurrence kept). -/
def adjacencyList (nodes : List TalentNodeData) (edges : List TalentEdgeData)
    (id : Nat) : List Nat :=
  if id ∈ nodes.map (fun n => n.id) then
    uniqueIndices ((edges.map (fun e =>
      (if e.fromNodeId = id then [e.toNodeId] else []) ++
      (if e.toNodeId = id then [e.fromNodeId] else []))).flatten)
  else []

/-- Every id that can ever sit in the BFS queue (used as the termination
measure's universe). -/
def bfsUniv (nodes : List TalentNodeData) (edges : List TalentEdgeData) : List Nat :=
  nodes.map (fun n => n.id) ++
    (edges.map (fun e => [e.fromNodeId, e.toNodeId])).flatten

theorem adjacencyList_subset_univ (nodes : List TalentNodeData)
    (edges : List TalentEdgeData) (id m : Nat) (h : m ∈ adjacencyList nodes edges id) :
    m ∈ bfsUniv nodes edges := by
  unfold adjacencyList at h
  split at h
  · rw [mem_uniqueIndices] at h
    rw [List.mem_flatten] at h
    obtain ⟨l, hl, hml⟩ := h
    obtain ⟨e, he, rfl⟩ := List.mem_map.1 hl
    unfold bfsUniv
    rw [List.mem_append, List.mem_flatten]
    refine Or.inr ⟨[e.fromNodeId, e.toNodeId], List.mem_map.2 ⟨e, he, rfl⟩, ?_⟩
    rw [List.mem_append] at hml
    rcases hml with hml | hml <;> split at hml <;> simp at hml <;> simp [hml]
  · cases h

theorem adjacencyList_nil_of_not_node (nodes : List TalentNodeData)
    (edges : List TalentEdgeData) (id : Nat) (h : id ∉ nodes.map (fun n => n.id)) :
    adjacencyList nodes edges id = [] := by
  unfold adjacencyList
  rw [if_neg h]

theorem filter_length_lt (l visited : List Nat) (id : Nat)
    (hid : id ∈ l) (hnv : id ∉ visited) :
    (l.filter (fun x => x ∉ visited ++ [id])).length <
      (l.filter (fun x => x ∉ visited)).length := by
  induction l with
  | nil => cases hid
  | cons a l ih =>
    rw [List.filter_cons, List.filter_cons]
    have hmono : (l.filter (fun x => x ∉ visited ++ [id])).length ≤
        (l.filter (fun x => x ∉ visited)).length :=
      (List.monotone_filter_right l (fun x hx => by
        simp at hx ⊢
        exact hx.1)).length_le
    rcases List.mem_cons.1 hid with rfl | hal
    · rw [if_neg (by simp), if_pos (by simpa using hnv)]
      simp only [List.length_cons]
      omega
    · by_cases hav : a ∈ visited
      · rw [if_neg (by simp [hav]), if_neg (by simp [hav])]
        exact ih hal
      · by_cases hai : a = id
        · subst hai
          rw [if_neg (by simp), if_pos (by simpa using hav)]
          simp only [List.length_cons]
          omega
        · rw [if_pos (by simp [hav, hai]), if_pos (by simpa using hav)]
          simp only [List.length_cons]
          exact Nat.succ_lt_succ (ih hal)

/-- The inner BFS loop of TalentTreeView's component computation: pop the
front of the queue; skip ids already visited; otherwise mark visited, append
to the component, and push the not-yet-visited neighbours.  Returns the
finished component together with the updated visited set. -/
def bfsLoop (nodes : List TalentNodeData) (edges : List TalentEdgeData) :
    List Nat → List Nat → List Nat → List Nat × List Nat
  | visited, [], component => (component, visited)
  | visited, i :: rest, component =>
    if i ∈ visited then
      bfsLoop nodes edges visited rest component
    else
      bfsLoop nodes edges (visited ++ [i])
        (rest ++ (adjacencyList nodes edges i).filter
          (fun m => m ∉ visited ++ [i]))
        (component ++ [i])
termination_by visited queue _ =>
  (((bfsUniv nodes edges).filter (fun x => x ∉ visited)).length, queue.length)
decreasing_by
  · apply Prod.Lex.right
    simp
  · by_cases hu : i ∈ bfsUniv nodes edges
    · exact Prod.Lex.left _ _ (filter_length_lt _ _ _ hu (by assumption))
    · have hadj : adjacencyList nodes edges i = [] := by
        apply adjacencyList_nil_of_not_node
        intro hmem
        exact hu (by unfold bfsUniv; exact List.mem_append.2 (Or.inl hmem))
      have hfeq : ((bfsUniv nodes edges).filter (fun x => x ∉ visited ++ [i])).length =
          ((bfsUniv nodes edges).filter (fun x => x ∉ visited)).length := by
        congr 1
        apply List.filter_congr
        intro x hx
        have : x ≠ i := fun h => hu (h ▸ hx)
        simp [this]
      rw [hfeq, hadj]
      apply Prod.Lex.right
      simp

/-- The outer `for (const node of allNodes)` loop: start a BFS at every node
whose id has not been visited yet, collecting the components in order. -/
def componentsGo (nodes : List TalentNodeData) (edges : List TalentEdgeData) :
    List TalentNodeData → List Nat → List (List Nat)
  | [], _ => []
  | n :: rest, visited =>
    if n.id ∈ visited then componentsGo nodes edges rest visited
    else
      let p := bfsLoop nodes edges visited [n.id] []
      p.1 :: componentsGo nodes edges rest p.2

/-- The `components` array of TalentTreeView. -/
def treeComponents (nodes : List TalentNodeData) (edges : List TalentEdgeData) :
    List (List Nat) :=
  componentsGo nodes edges nodes []

/-- The `selectedIndices` set: indices of the selected selection records. -/
def selectedIndicesOf (selectedNodes : List TalentNodeSelection) : List Nat :=
  (selectedNodes.filter (fun n => n.isSelected)).map (fun n => n.nodeIndex)

/-- The guard `node.allowedSpecs && node.allowedSpecs.length > 0 &&
!node.allowedSpecs.includes(specData.specId)` that skips spec-restricted
nodes. -/
def specExcluded (specId : Nat) (n : TalentNodeData) : Bool :=
  match n.allowedSpecs with
  | some l => decide (0 < l.length) && !(l.contains specId)
  | none => false

/-- The `selectedCount` computed by `componentInfo` for one component: for each
id, look the node up by id, skip spec-restricted nodes, and test whether the
node's position in `allNodes` is a selected index. -/
def heroSelectedCount (nodes : List TalentNodeData) (specId : Nat)
    (selIdx : List Nat) (comp : List Nat) : Nat :=
  comp.countP (fun i =>
    match nodes.find? (fun n => n.id == i) with
    | none => false
    | some node =>
      if specExcluded specId node then false
      else selIdx.contains (nodes.findIdx (fun n => n.id == i)))

/-- The `heroTreeComponents` index list: components whose size lies in
`[10, 25]`, in enumeration order. -/
def heroTreeComponentIdxs (comps : List (List Nat)) : List Nat :=
  (List.range comps.length).filter
    (fun i => decide (10 ≤ (comps.getD i []).length ∧ (comps.getD i []).length ≤ 25))

/-- The `selectedHeroComponent` / `maxSelectedCount` loop: keep the first
candidate whose count strictly exceeds the running maximum (initially 0). -/
def selectedHeroComponentOf (specId : Nat) (nodes : List TalentNodeData)
    (edges : List TalentEdgeData) (selectedNodes : List TalentNodeSelection) :
    Option Nat × Nat :=
  (heroTreeComponentIdxs (treeComponents nodes edges)).foldl
    (fun acc i =>
      let c := heroSelectedCount nodes specId (selectedIndicesOf selectedNodes)
        ((treeComponents nodes edges).getD i [])
      if acc.2 < c then (some i, c) else acc)
    (none, 0)

/-- The `heroTreeNodeIds` set: union of all candidate components' ids. -/
def heroTreeNodeIdsOf (nodes : List TalentNodeData) (edges : List TalentEdgeData) :
    List Nat :=
  ((heroTreeComponentIdxs (treeComponents nodes edges)).map
    (fun i => (treeComponents nodes edges).getD i [])).flatten

/-- The `selectedHeroNodeIds` set: the winning component's ids, or empty when
no candidate won. -/
def selectedHeroNodeIdsOf (specId : Nat) (nodes : List TalentNodeData)
    (edges : List TalentEdgeData) (selectedNodes : List TalentNodeSelection) :
    List Nat :=
  match (selectedHeroComponentOf specId nodes edges selectedNodes).1 with
  | some i => (treeComponents nodes edges).getD i []
  | none => []

/-- One undirected adjacency step along the edge list. -/
def adjRel (edges : List TalentEdgeData) (a b : Nat) : Prop :=
  ∃ e ∈ edges, (e.fromNodeId = a ∧ e.toNodeId = b) ∨ (e.fromNodeId = b ∧ e.toNodeId = a)

theorem adjRel_symm (edges : List TalentEdgeData) (a b : Nat)
    (h : adjRel edges a b) : adjRel edges b a := by
  obtain ⟨e, he, h⟩ := h
  exact ⟨e, he, h.symm⟩

theorem mem_adjacencyList (nodes : List TalentNodeData) (edges : List TalentEdgeData)
    (i m : Nat) (hi : i ∈ nodes.map (fun n => n.id)) :
    m ∈ adjacencyList nodes edges i ↔ adjRel edges i m := by
  unfold adjacencyList
  rw [if_pos hi, mem_uniqueIndices, List.mem_flatten]
  constructor
  · rintro ⟨l, hl, hm⟩
    obtain ⟨e, he, rfl⟩ := List.mem_map.1 hl
    rw [List.mem_append] at hm
    rcases hm with hm | hm <;> split at hm <;> simp at hm
    · subst hm
      exact ⟨e, he, Or.inl ⟨by assumption, rfl⟩⟩
    · subst hm
      exact ⟨e, he, Or.inr ⟨rfl, by assumption⟩⟩
  · rintro ⟨e, he, h⟩
    refine ⟨(if e.fromNodeId = i then [e.toNodeId] else []) ++
      (if e.toNodeId = i then [e.fromNodeId] else []),
      List.mem_map.2 ⟨e, he, rfl⟩, ?_⟩
    rw [List.mem_append]
    rcases h with ⟨h1, h2⟩ | ⟨h1, h2⟩
    · exact Or.inl (by rw [if_pos h1]; simp [h2])
    · exact Or.inr (by rw [if_pos h2]; simp [h1])

theorem adjRel_mem_ids (nodes : List TalentNodeData) (edges : List TalentEdgeData)
    (hedge : ∀ e ∈ edges, e.fromNodeId ∈ nodes.map (fun n => n.id) ∧
      e.toNodeId ∈ nodes.map (fun n => n.id))
    (a b : Nat) (h : adjRel edges a b) :
    a ∈ nodes.map (fun n => n.id) ∧ b ∈ nodes.map (fun n => n.id) := by
  obtain ⟨e, he, h⟩ := h
  rcases h with ⟨rfl, rfl⟩ | ⟨rfl, rfl⟩
  · exact hedge e he
  · exact ⟨(hedge e he).2, (hedge e he).1⟩

theorem reach_mem_ids (nodes : List TalentNodeData) (edges : List TalentEdgeData)
    (hedge : ∀ e ∈ edges, e.fromNodeId ∈ nodes.map (fun n => n.id) ∧
      e.toNodeId ∈ nodes.map (fun n => n.id))
    (s y : Nat) (hs : s ∈ nodes.map (fun n => n.id))
    (h : Relation.ReflTransGen (adjRel edges) s y) :
    y ∈ nodes.map (fun n => n.id) := by
  induction h with
  | refl => exact hs
  | tail _ hbc _ => exact (adjRel_mem_ids nodes edges hedge _ _ hbc).2

theorem reach_symm (edges : List TalentEdgeData) (a b : Nat)
    (h : Relation.ReflTransGen (adjRel edges) a b) :
    Relation.ReflTransGen (adjRel edges) b a := by
  induction h with
  | refl => exact Relation.ReflTransGen.refl
  | tail _ hbc ih =>
    exact Relation.ReflTransGen.trans
      (Relation.ReflTransGen.single (adjRel_symm edges _ _ hbc)) ih

theorem bfsLoop_shape (nodes : List TalentNodeData) (edges : List TalentEdgeData) :
    ∀ visited queue component, ∃ d,
      bfsLoop nodes edges visited queue component = (component ++ d, visited ++ d) ∧
      (∀ x ∈ d, x ∉ visited) ∧ d.Nodup := by
  intro visited queue component
  induction visited, queue, component using bfsLoop.induct nodes edges with
  | case1 visited component =>
    exact ⟨[], by unfold bfsLoop; simp, by simp, List.nodup_nil⟩
  | case2 visited i rest component hvis ih =>
    obtain ⟨d, heq, hdis, hnd⟩ := ih
    refine ⟨d, ?_, hdis, hnd⟩
    unfold bfsLoop
    rw [if_pos hvis]
    exact heq
  | case3 visited i rest component hvis ih =>
    obtain ⟨d, heq, hdis, hnd⟩ := ih
    refine ⟨i :: d, ?_, ?_, ?_⟩
    · unfold bfsLoop
      rw [if_neg hvis, heq]
      simp
    · intro x hx
      rcases List.mem_cons.1 hx with rfl | hx
      · exact hvis
      · intro hxv
        exact hdis x hx (List.mem_append.2 (Or.inl hxv))
    · refine List.nodup_cons.2 ⟨fun hid => ?_, hnd⟩
      exact hdis i hid (List.mem_append.2 (Or.inr (by simp)))

theorem bfsLoop_mem (nodes : List TalentNodeData) (edges : List TalentEdgeData) :
    ∀ visited queue component, ∀ x : Nat,
      (x ∈ component ∨ (x ∈ queue ∧ x ∉ visited)) →
      x ∈ (bfsLoop nodes edges visited queue component).1 := by
  intro visited queue component
  induction visited, queue, component using bfsLoop.induct nodes edges with
  | case1 visited component =>
    intro x hx
    unfold bfsLoop
    rcases hx with hx | ⟨hx, _⟩
    · exact hx
    · cases hx
  | case2 visited i rest component hvis ih =>
    intro x hx
    unfold bfsLoop
    rw [if_pos hvis]
    apply ih
    rcases hx with hx | ⟨hq, hv⟩
    · exact Or.inl hx
    · rcases List.mem_cons.1 hq with rfl | hq
      · exact absurd hvis hv
      · exact Or.inr ⟨hq, hv⟩
  | case3 visited i rest component hvis ih =>
    intro x hx
    unfold bfsLoop
    rw [if_neg hvis]
    apply ih
    rcases hx with hx | ⟨hq, hv⟩
    · exact Or.inl (List.mem_append.2 (Or.inl hx))
    · rcases List.mem_cons.1 hq with rfl | hq
      · exact Or.inl (List.mem_append.2 (Or.inr (by simp)))
      · by_cases hxi : x = i
        · exact Or.inl (List.mem_append.2 (Or.inr (by simp [hxi])))
        · refine Or.inr ⟨List.mem_append.2 (Or.inl hq), ?_⟩
          intro hmem
          rcases List.mem_append.1 hmem with h | h
          · exact hv h
          · exact hxi (by simpa using h)

theorem bfsLoop_reach (nodes : List TalentNodeData) (edges : List TalentEdgeData)
    (G : Nat → Prop)
    (hAdj : ∀ x y, G x → y ∈ adjacencyList nodes edges x → G y) :
    ∀ visited queue component,
      (∀ x ∈ queue, G x) →
      ∀ x ∈ (bfsLoop nodes edges visited queue component).1, x ∈ component ∨ G x := by
  intro visited queue component
  induction visited, queue, component using bfsLoop.induct nodes edges with
  | case1 visited component =>
    intro _ x hx
    unfold bfsLoop at hx
    exact Or.inl hx
  | case2 visited i rest component hvis ih =>
    intro hQ x hx
    unfold bfsLoop at hx
    rw [if_pos hvis] at hx
    exact ih (fun y hy => hQ y (List.mem_cons_of_mem _ hy)) x hx
  | case3 visited i rest component hvis ih =>
    intro hQ x hx
    unfold bfsLoop at hx
    rw [if_neg hvis] at hx
    have hQ' : ∀ y ∈ rest ++ (adjacencyList nodes edges i).filter
        (fun m => m ∉ visited ++ [i]), G y := by
      intro y hy
      rcases List.mem_append.1 hy with hy | hy
      · exact hQ y (List.mem_cons_of_mem _ hy)
      · exact hAdj i y (hQ i (List.mem_cons_self _ _)) (List.mem_of_mem_filter hy)
    rcases ih hQ' x hx with hx | hx
    · rcases List.mem_append.1 hx with hx | hx
      · exact Or.inl hx
      · exact Or.inr (by rw [show x = i by simpa using hx]; exact hQ i (List.mem_cons_self _ _))
    · exact Or.inr hx

theorem bfsLoop_closed (nodes : List TalentNodeData) (edges : List TalentEdgeData) :
    ∀ visited queue component,
      (∀ x ∈ component, ∀ y ∈ adjacencyList nodes edges x, y ∈ visited ∨ y ∈ queue) →
      ∀ x ∈ (bfsLoop nodes edges visited queue component).1,
        ∀ y ∈ adjacencyList nodes edges x,
          y ∈ (bfsLoop nodes edges visited queue component).2 := by
  intro visited queue component
  induction visited, queue, component using bfsLoop.induct nodes edges with
  | case1 visited component =>
    intro hInv x hx y hy
    unfold bfsLoop at hx ⊢
    rcases hInv x hx y hy with h | h
    · exact h
    · cases h
  | case2 visited i rest component hvis ih =>
    intro hInv x hx y hy
    unfold bfsLoop at hx ⊢
    rw [if_pos hvis] at hx ⊢
    refine ih ?_ x hx y hy
    intro x' hx' y' hy'
    rcases hInv x' hx' y' hy' with h | h
    · exact Or.inl h
    · rcases List.mem_cons.1 h with rfl | h
      · exact Or.inl hvis
      · exact Or.inr h
  | case3 visited i rest component hvis ih =>
    intro hInv x hx y hy
    unfold bfsLoop at hx ⊢
    rw [if_neg hvis] at hx ⊢
    refine ih ?_ x hx y hy
    intro x' hx' y' hy'
    rcases List.mem_append.1 hx' with hx' | hx'
    · rcases hInv x' hx' y' hy' with h | h
      · exact Or.inl (List.mem_append.2 (Or.inl h))
      · rcases List.mem_cons.1 h with rfl | h
        · exact Or.inl (List.mem_append.2 (Or.inr (by simp)))
        · exact Or.inr (List.mem_append.2 (Or.inl h))
    · have hxi : x' = i := by simpa using hx'
      subst hxi
      by_cases hyv : y' ∈ visited ++ [x']
      · exact Or.inl hyv
      · refine Or.inr (List.mem_append.2 (Or.inr ?_))
        rw [List.mem_filter]
        exact ⟨hy', by simpa using hyv⟩

/-- One full BFS started at a fresh node id `s` (queue `[s]`, empty component)
computes exactly the reachability class of `s` among the unvisited ids, and
leaves the visited set closed under adjacency again. -/
theorem bfsFrom_spec (nodes : List TalentNodeData) (edges : List TalentEdgeData)
    (hedge : ∀ e ∈ edges, e.fromNodeId ∈ nodes.map (fun n => n.id) ∧
      e.toNodeId ∈ nodes.map (fun n => n.id))
    (visited : List Nat) (s : Nat)
    (hclosed : ∀ x ∈ visited, ∀ y, adjRel edges x y → y ∈ visited)
    (hs : s ∉ visited) (hsid : s ∈ nodes.map (fun n => n.id)) :
    (bfsLoop nodes edges visited [s] []).2 =
      visited ++ (bfsLoop nodes edges visited [s] []).1 ∧
    (bfsLoop nodes edges visited [s] []).1.Nodup ∧
    (∀ x ∈ (bfsLoop nodes edges visited [s] []).1, x ∉ visited) ∧
    (∀ y, y ∈ (bfsLoop nodes edges visited [s] []).1 ↔
      Relation.ReflTransGen (adjRel edges) s y) ∧
    (∀ x ∈ (bfsLoop nodes edges visited [s] []).2, ∀ y, adjRel edges x y →
      y ∈ (bfsLoop nodes edges visited [s] []).2) := by
  obtain ⟨d, heq, hdis, hnd⟩ := bfsLoop_shape nodes edges visited [s] []
  have h1 : (bfsLoop nodes edges visited [s] []).1 = d := by rw [heq]; simp
  have h2 : (bfsLoop nodes edges visited [s] []).2 = visited ++ d := by rw [heq]
  have hsmem : s ∈ d := by
    rw [← h1]
    exact bfsLoop_mem nodes edges visited [s] [] s (Or.inr ⟨by simp, hs⟩)
  have hfwd : ∀ x ∈ d, Relation.ReflTransGen (adjRel edges) s x := by
    intro x hx
    have := bfsLoop_reach nodes edges
      (Relation.ReflTransGen (adjRel edges) s)
      (fun a b ha hb => Relation.ReflTransGen.tail ha
        ((mem_adjacencyList nodes edges a b
          (reach_mem_ids nodes edges hedge s a hsid ha)).1 hb))
      visited [s] []
      (fun y hy => by rw [show y = s by simpa using hy]) x (by rw [h1]; exact hx)
    rcases this with h | h
    · cases h
    · exact h
  have hcl : ∀ x ∈ visited ++ d, ∀ y, adjRel edges x y → y ∈ visited ++ d := by
    intro x hx y hxy
    rcases List.mem_append.1 hx with hx | hx
    · exact List.mem_append.2 (Or.inl (hclosed x hx y hxy))
    · have hxid : x ∈ nodes.map (fun n => n.id) :=
        reach_mem_ids nodes edges hedge s x hsid (hfwd x hx)
      have hyadj : y ∈ adjacencyList nodes edges x :=
        (mem_adjacencyList nodes edges x y hxid).2 hxy
      have := bfsLoop_closed nodes edges visited [s] []
        (by intro x' hx'; cases hx') x (by rw [h1]; exact hx) y hyadj
      rw [h2] at this
      exact this
  have hback : ∀ y, Relation.ReflTransGen (adjRel edges) s y → y ∈ d := by
    intro y hy
    induction hy with
    | refl => exact hsmem
    | tail hab hbc ih =>
      have hbd := hcl _ (List.mem_append.2 (Or.inr ih)) _ hbc
      rcases List.mem_append.1 hbd with hbv | hbd
      · exfalso
        have := hclosed _ hbv _ (adjRel_symm edges _ _ hbc)
        exact hdis _ ih this
      · exact hbd
  refine ⟨h2.trans (by rw [h1]), by rw [h1]; exact hnd, by rw [h1]; exact hdis, ?_, ?_⟩
  · intro y
    rw [h1]
    exact ⟨hfwd y, hback y⟩
  · rw [h2]
    exact hcl

/-- The outer loop specification: every produced component is exactly the
reachability class of some node id, is duplicate-free, and every node of the
remaining list ends up either already visited or inside some produced
component. -/
theorem componentsGo_spec (nodes : List TalentNodeData) (edges : List TalentEdgeData)
    (hedge : ∀ e ∈ edges, e.fromNodeId ∈ nodes.map (fun n => n.id) ∧
      e.toNodeId ∈ nodes.map (fun n => n.id)) :
    ∀ (rem : List TalentNodeData) (visited : List Nat),
      (∀ x ∈ visited, ∀ y, adjRel edges x y → y ∈ visited) →
      (∀ n ∈ rem, n ∈ nodes) →
      (∀ c ∈ componentsGo nodes edges rem visited,
        c.Nodup ∧ ∃ s, s ∈ nodes.map (fun n => n.id) ∧
          ∀ y, y ∈ c ↔ Relation.ReflTransGen (adjRel edges) s y) ∧
      (∀ n ∈ rem, n.id ∈ visited ∨ ∃ c ∈ componentsGo nodes edges rem visited, n.id ∈ c) := by
  intro rem
  induction rem with
  | nil =>
    intro visited _ _
    simp only [componentsGo]
    refine ⟨fun c hc => ?_, fun n hn => ?_⟩
    · cases hc
    · cases hn
  | cons n rest ih =>
    intro visited hclosed hsub
    by_cases hvis : n.id ∈ visited
    · have hrec := ih visited hclosed (fun m hm => hsub m (List.mem_cons_of_mem _ hm))
      have hunf : componentsGo nodes edges (n :: rest) visited =
          componentsGo nodes edges rest visited := by
        simp only [componentsGo]
        rw [if_pos hvis]
      rw [hunf]
      refine ⟨hrec.1, ?_⟩
      intro m hm
      rcases List.mem_cons.1 hm with rfl | hm
      · exact Or.inl hvis
      · exact hrec.2 m hm
    · have hnid : n.id ∈ nodes.map (fun m => m.id) :=
        List.mem_map.2 ⟨n, hsub n (List.mem_cons_self _ _), rfl⟩
      obtain ⟨hv2, hnd, hdis, hclass, hcl2⟩ :=
        bfsFrom_spec nodes edges hedge visited n.id hclosed hvis hnid
      have hclosed' : ∀ x ∈ (bfsLoop nodes edges visited [n.id] []).2,
          ∀ y, adjRel edges x y → y ∈ (bfsLoop nodes edges visited [n.id] []).2 := hcl2
      have hrec := ih (bfsLoop nodes edges visited [n.id] []).2 hclosed'
        (fun m hm => hsub m (List.mem_cons_of_mem _ hm))
      have hunf : componentsGo nodes edges (n :: rest) visited =
          (bfsLoop nodes edges visited [n.id] []).1 ::
            componentsGo nodes edges rest (bfsLoop nodes edges visited [n.id] []).2 := by
        simp only [componentsGo]
        rw [if_neg hvis]
      rw [hunf]
      constructor
      · intro c hc
        rcases List.mem_cons.1 hc with rfl | hc
        · exact ⟨hnd, ⟨n.id, hnid, hclass⟩⟩
        · exact hrec.1 c hc
      · intro m hm
        rcases List.mem_cons.1 hm with rfl | hm
        · refine Or.inr ⟨(bfsLoop nodes edges visited [m.id] []).1,
            List.mem_cons_self _ _, ?_⟩
          exact (hclass m.id).2 Relation.ReflTransGen.refl
        · rcases hrec.2 m hm with hmv | ⟨c, hcmem, hmc⟩
          · rw [hv2] at hmv
            rcases List.mem_append.1 hmv with hmv | hmv
            · exact Or.inl hmv
            · exact Or.inr ⟨_, List.mem_cons_self _ _, hmv⟩
          · exact Or.inr ⟨c, List.mem_cons_of_mem _ hcmem, hmc⟩

/-- The strict-maximum fold (`if info.selectedCount > maxSelectedCount`):
either no element beats the initial maximum and the accumulator survives, or
the result is the first element attaining the final maximum. -/
theorem pickFold_spec (c : Nat → Nat) :
    ∀ (l : List Nat) (b : Option Nat) (m : Nat),
      ((∀ j ∈ l, c j ≤ m) ∧
        l.foldl (fun acc i => if acc.2 < c i then (some i, c i) else acc) (b, m) = (b, m)) ∨
      (∃ i l1 l2, l = l1 ++ i :: l2 ∧ m < c i ∧
        (∀ j ∈ l1, c j < c i) ∧ (∀ j ∈ l2, c j ≤ c i) ∧
        l.foldl (fun acc i => if acc.2 < c i then (some i, c i) else acc) (b, m) =
          (some i, c i)) := by
  intro l
  induction l with
  | nil =>
    intro b m
    exact Or.inl ⟨fun j hj => absurd hj (List.not_mem_nil j), rfl⟩
  | cons a l ih =>
    intro b m
    rw [List.foldl_cons]
    by_cases hma : m < c a
    · rw [if_pos hma]
      rcases ih (some a) (c a) with ⟨hall, heq⟩ | ⟨i, l1, l2, hsplit, hlt, hl1, hl2, heq⟩
      · exact Or.inr ⟨a, [], l, rfl, hma, fun j hj => absurd hj (List.not_mem_nil j), hall, heq⟩
      · refine Or.inr ⟨i, a :: l1, l2, by rw [hsplit]; rfl, lt_trans hma hlt, ?_, hl2, heq⟩
        intro j hj
        rcases List.mem_cons.1 hj with rfl | hj
        · exact hlt
        · exact hl1 j hj
    · rw [if_neg hma]
      rcases ih b m with ⟨hall, heq⟩ | ⟨i, l1, l2, hsplit, hlt, hl1, hl2, heq⟩
      · refine Or.inl ⟨?_, heq⟩
        intro j hj
        rcases List.mem_cons.1 hj with rfl | hj
        · exact Nat.not_lt.1 hma
        · exact hall j hj
      · refine Or.inr ⟨i, a :: l1, l2, by rw [hsplit]; rfl, hlt, ?_, hl2, heq⟩
        intro j hj
        rcases List.mem_cons.1 hj with rfl | hj
        · exact lt_of_le_of_lt (Nat.not_lt.1 hma) hlt
        · exact hl1 j hj

theorem find_findIdx_getD {α : Type} (dflt : α) (p : α → Bool) :
    ∀ (l : List α) (n : α), l.find? p = some n →
      l.findIdx p < l.length ∧ l.getD (l.findIdx p) dflt = n ∧ p n = true := by
  intro l
  induction l with
  | nil => intro n h; cases h
  | cons a l ih =>
    intro n h
    cases hpa : p a
    · rw [List.find?_cons_of_neg _ (by simp [hpa])] at h
      obtain ⟨h1, h2, h3⟩ := ih n h
      rw [List.findIdx_cons, hpa]
      show l.findIdx p + 1 < l.length + 1 ∧ (a :: l).getD (l.findIdx p + 1) dflt = n ∧ p n = true
      refine ⟨Nat.succ_lt_succ h1, ?_, h3⟩
      rw [List.getD_cons_succ]
      exact h2
    · rw [List.find?_cons_of_pos _ hpa] at h
      obtain rfl : a = n := by injection h
      rw [List.findIdx_cons, hpa]
      show 0 < l.length + 1 ∧ (a :: l).getD 0 dflt = a ∧ true = true
      exact ⟨Nat.succ_pos _, List.getD_cons_zero, rfl⟩

theorem find?_exists {α : Type} (p : α → Bool) (l : List α) (x : α)
    (hx : x ∈ l) (hpx : p x = true) : ∃ n, l.find? p = some n := by
  induction l with
  | nil => cases hx
  | cons a l ih =>
    cases hpa : p a
    · rw [List.find?_cons_of_neg _ (by simp [hpa])]
      rcases List.mem_cons.1 hx with rfl | hx
      · rw [hpa] at hpx; cases hpx
      · exact ih hx
    · exact ⟨a, List.find?_cons_of_pos _ hpa⟩

theorem nodup_map_getD_inj {α β : Type} (f : α → β) (dflt : α) (l : List α)
    (h : (l.map f).Nodup) (j1 j2 : Nat) (h1 : j1 < l.length) (h2 : j2 < l.length)
    (he : f (l.getD j1 dflt) = f (l.getD j2 dflt)) : j1 = j2 := by
  rw [List.getD_eq_getElem l dflt h1, List.getD_eq_getElem l dflt h2] at he
  have h1' : j1 < (l.map f).length := by simpa using h1
  have h2' : j2 < (l.map f).length := by simpa using h2
  have : (l.map f)[j1] = (l.map f)[j2] := by
    rw [List.getElem_map, List.getElem_map]
    exact he
  exact (List.Nodup.getElem_inj_iff h).1 this

/-- Placeholder node used only as the default of positional lookups. -/
def dfltNode : TalentNodeData := ⟨0, 0, 0, 0, 0, [], none⟩

/-- With duplicate-free node ids, the id-keyed lookup of `componentInfo`
counts exactly the positions `j` whose node carries the id, is not
spec-restricted away, and is a selected index. -/
theorem heroCounted_iff (nodes : List TalentNodeData) (specId : Nat)
    (selectedNodes : List TalentNodeSelection)
    (hids : (nodes.map (fun n => n.id)).Nodup) (i : Nat) :
    (match nodes.find? (fun n => n.id == i) with
     | none => false
     | some node =>
       if specExcluded specId node then false
       else (selectedIndicesOf selectedNodes).contains
         (nodes.findIdx (fun n => n.id == i))) = true ↔
    ∃ j, j < nodes.length ∧ (nodes.getD j dfltNode).id = i ∧
      specExcluded specId (nodes.getD j dfltNode) = false ∧
      ∃ s ∈ selectedNodes, s.isSelected = true ∧ s.nodeIndex = j := by
  constructor
  · intro h
    rcases hf : nodes.find? (fun n => n.id == i) with _ | node
    · rw [hf] at h
      cases h
    · rw [hf] at h
      dsimp only at h
      obtain ⟨hlt, hgd, hpn⟩ := find_findIdx_getD dfltNode _ _ _ hf
      by_cases hex : specExcluded specId node
      · rw [if_pos hex] at h
        cases h
      · rw [if_neg hex] at h
        refine ⟨nodes.findIdx (fun n => n.id == i), hlt, ?_, ?_, ?_⟩
        · rw [hgd]
          simpa using hpn
        · rw [hgd]
          simpa using hex
        · have hmem : nodes.findIdx (fun n => n.id == i) ∈
              selectedIndicesOf selectedNodes := by simpa using h
          unfold selectedIndicesOf at hmem
          rw [List.mem_map] at hmem
          obtain ⟨s, hs, hs3⟩ := hmem
          rw [List.mem_filter] at hs
          exact ⟨s, hs.1, hs.2, hs3⟩
  · rintro ⟨j, hj, hid, hex, s, hsmem, hsel, hsidx⟩
    have hgdmem : nodes.getD j dfltNode ∈ nodes := by
      rw [List.getD_eq_getElem nodes dfltNode hj]
      exact List.getElem_mem hj
    obtain ⟨node, hf⟩ := find?_exists (fun n => n.id == i) nodes _ hgdmem
      (by simp only [beq_iff_eq]; exact hid)
    obtain ⟨hlt, hgd, hpn⟩ := find_findIdx_getD dfltNode _ _ _ hf
    have hj0 : nodes.findIdx (fun n => n.id == i) = j := by
      apply nodup_map_getD_inj (fun n => n.id) dfltNode nodes hids _ _ hlt hj
      rw [hgd, hid]
      simpa using hpn
    rw [hf]
    dsimp only
    have hnode : node = nodes.getD j dfltNode := by
      rw [← hj0, hgd]
    rw [if_neg (by rw [hnode, hex]; exact Bool.false_ne_true)]
    rw [hj0]
    have : j ∈ selectedIndicesOf selectedNodes := by
      unfold selectedIndicesOf
      rw [List.mem_map]
      exact ⟨s, List.mem_filter.2 ⟨hsmem, hsel⟩, hsidx⟩
    simpa using this

/-- `heroSelectedCount` as a pure count over the component's ids. -/
theorem heroSelectedCount_eq (nodes : List TalentNodeData) (specId : Nat)
    (selectedNodes : List TalentNodeSelection)
    (hids : (nodes.map (fun n => n.id)).Nodup) (comp : List Nat) :
    heroSelectedCount nodes specId (selectedIndicesOf selectedNodes) comp =
    comp.countP (fun i => decide (∃ j, j < nodes.length ∧
      (nodes.getD j dfltNode).id = i ∧
      specExcluded specId (nodes.getD j dfltNode) = false ∧
      ∃ s ∈ selectedNodes, s.isSelected = true ∧ s.nodeIndex = j)) := by
  unfold heroSelectedCount
  apply List.countP_congr
  intro a _
  rw [decide_eq_true_iff]
  exact heroCounted_iff nodes specId selectedNodes hids a

theorem mem_heroTreeComponentIdxs (comps : List (List Nat)) (j : Nat) :
    j ∈ heroTreeComponentIdxs comps ↔
      j < comps.length ∧ 10 ≤ (comps.getD j []).length ∧ (comps.getD j []).length ≤ 25 := by
  unfold heroTreeComponentIdxs
  rw [List.mem_filter, List.mem_range]
  simp

theorem mem_heroTreeNodeIdsOf (nodes : List TalentNodeData)
    (edges : List TalentEdgeData) (x : Nat) :
    x ∈ heroTreeNodeIdsOf nodes edges ↔
      ∃ j ∈ heroTreeComponentIdxs (treeComponents nodes edges),
        x ∈ (treeComponents nodes edges).getD j [] := by
  unfold heroTreeNodeIdsOf
  rw [List.mem_flatten]
  constructor
  · rintro ⟨l, hl, hx⟩
    obtain ⟨j, hj, rfl⟩ := List.mem_map.1 hl
    exact ⟨j, hj, hx⟩
  · rintro ⟨j, hj, hx⟩
    exact ⟨_, List.mem_map.2 ⟨j, hj, rfl⟩, hx⟩

/-- C6: For every topology with duplicate-free node ids and edges between
listed nodes, the hero-branch analysis of TalentTreeView (a) computes as
`treeComponents` exactly the connected components of the undirected adjacency
relation (each component is duplicate-free and is precisely the reachability
class of each of its members, and every node lands in one), (b) takes as
branch candidates exactly the components whose node count lies in [10, 25],
(c) counts for each candidate the selected, not-spec-excluded nodes, (d) when
every candidate has a zero count selects no active branch and returns an empty
active-id set rather than an error, (e) otherwise hands the active-branch ids
of the first candidate attaining the strictly greatest count, and (f) exposes
the union of all candidate components' ids as the branch node-id set for
overlap resolution. -/
theorem hero_branch_analysis (specId : Nat) (nodes : List TalentNodeData)
    (edges : List TalentEdgeData) (selectedNodes : List TalentNodeSelection)
    (hids : (nodes.map (fun n => n.id)).Nodup)
    (hedge : ∀ e ∈ edges, e.fromNodeId ∈ nodes.map (fun n => n.id) ∧
      e.toNodeId ∈ nodes.map (fun n => n.id)) :
    (∀ c ∈ treeComponents nodes edges, c.Nodup ∧ ∀ x ∈ c, ∀ y,
      (y ∈ c ↔ Relation.ReflTransGen (adjRel edges) x y)) ∧
    (∀ n ∈ nodes, ∃ c ∈ treeComponents nodes edges, n.id ∈ c) ∧
    (∀ j, j ∈ heroTreeComponentIdxs (treeComponents nodes edges) ↔
      j < (treeComponents nodes edges).length ∧
      10 ≤ ((treeComponents nodes edges).getD j []).length ∧
      ((treeComponents nodes edges).getD j []).length ≤ 25) ∧
    (∀ comp, heroSelectedCount nodes specId (selectedIndicesOf selectedNodes) comp =
      comp.countP (fun i => decide (∃ j, j < nodes.length ∧
        (nodes.getD j dfltNode).id = i ∧
        specExcluded specId (nodes.getD j dfltNode) = false ∧
        ∃ s ∈ selectedNodes, s.isSelected = true ∧ s.nodeIndex = j))) ∧
    ((∀ j ∈ heroTreeComponentIdxs (treeComponents nodes edges),
        heroSelectedCount nodes specId (selectedIndicesOf selectedNodes)
          ((treeComponents nodes edges).getD j []) = 0) →
      (selectedHeroComponentOf specId nodes edges selectedNodes).1 = none ∧
      selectedHeroNodeIdsOf specId nodes edges selectedNodes = []) ∧
    ((∃ j ∈ heroTreeComponentIdxs (treeComponents nodes edges),
        0 < heroSelectedCount nodes specId (selectedIndicesOf selectedNodes)
          ((treeComponents nodes edges).getD j [])) →
      ∃ b l1 l2, heroTreeComponentIdxs (treeComponents nodes edges) = l1 ++ b :: l2 ∧
        (selectedHeroComponentOf specId nodes edges selectedNodes).1 = some b ∧
        0 < heroSelectedCount nodes specId (selectedIndicesOf selectedNodes)
          ((treeComponents nodes edges).getD b []) ∧
        (∀ j ∈ l1, heroSelectedCount nodes specId (selectedIndicesOf selectedNodes)
            ((treeComponents nodes edges).getD j []) <
          heroSelectedCount nodes specId (selectedIndicesOf selectedNodes)
            ((treeComponents nodes edges).getD b [])) ∧
        (∀ j ∈ l2, heroSelectedCount nodes specId (selectedIndicesOf selectedNodes)
            ((treeComponents nodes edges).getD j []) ≤
          heroSelectedCount nodes specId (selectedIndicesOf selectedNodes)
            ((treeComponents nodes edges).getD b [])) ∧
        selectedHeroNodeIdsOf specId nodes edges selectedNodes =
          (treeComponents nodes edges).getD b []) ∧
    (∀ x, x ∈ heroTreeNodeIdsOf nodes edges ↔
      ∃ j ∈ heroTreeComponentIdxs (treeComponents nodes edges),
        x ∈ (treeComponents nodes edges).getD j []) := by
  have hspec := componentsGo_spec nodes edges hedge nodes []
    (fun x hx => absurd hx (List.not_mem_nil x)) (fun n hn => hn)
  have hfold : selectedHeroComponentOf specId nodes edges selectedNodes =
      (heroTreeComponentIdxs (treeComponents nodes edges)).foldl
        (fun acc i => if acc.2 <
            heroSelectedCount nodes specId (selectedIndicesOf selectedNodes)
              ((treeComponents nodes edges).getD i [])
          then (some i, heroSelectedCount nodes specId (selectedIndicesOf selectedNodes)
              ((treeComponents nodes edges).getD i []))
          else acc) (none, 0) := rfl
  have hP := pickFold_spec
    (fun i => heroSelectedCount nodes specId (selectedIndicesOf selectedNodes)
      ((treeComponents nodes edges).getD i []))
    (heroTreeComponentIdxs (treeComponents nodes edges)) none 0
  refine ⟨?_, ?_, ?_, ?_, ?_, ?_, ?_⟩
  · intro c hc
    obtain ⟨hnd, s, _, hclass⟩ := hspec.1 c hc
    refine ⟨hnd, ?_⟩
    intro x hx y
    have hsx := (hclass x).1 hx
    constructor
    · intro hy
      exact Relation.ReflTransGen.trans (reach_symm edges s x hsx) ((hclass y).1 hy)
    · intro hxy
      exact (hclass y).2 (Relation.ReflTransGen.trans hsx hxy)
  · intro n hn
    rcases hspec.2 n hn with h | h
    · exact absurd h (List.not_mem_nil n.id)
    · exact h
  · exact fun j => mem_heroTreeComponentIdxs (treeComponents nodes edges) j
  · exact fun comp => heroSelectedCount_eq nodes specId selectedNodes hids comp
  · intro hz
    rcases hP with ⟨_, heq⟩ | ⟨i, l1, l2, hsplit, hlt, _, _, _⟩
    · have h1 : (selectedHeroComponentOf specId nodes edges selectedNodes).1 = none := by
        rw [hfold, heq]
      refine ⟨h1, ?_⟩
      unfold selectedHeroNodeIdsOf
      rw [h1]
    · exfalso
      have hi : i ∈ heroTreeComponentIdxs (treeComponents nodes edges) := by
        rw [hsplit]
        exact List.mem_append.2 (Or.inr (List.mem_cons_self _ _))
      rw [hz i hi] at hlt
      exact Nat.lt_irrefl 0 hlt
  · rintro ⟨j, hj, hjpos⟩
    rcases hP with ⟨hall, _⟩ | ⟨i, l1, l2, hsplit, hlt, hl1, hl2, heq⟩
    · exfalso
      have := hall j hj
      omega
    · have h1 : (selectedHeroComponentOf specId nodes edges selectedNodes).1 = some i := by
        rw [hfold, heq]
      refine ⟨i, l1, l2, hsplit, h1, hlt, hl1, hl2, ?_⟩
      unfold selectedHeroNodeIdsOf
      rw [h1]
  · exact fun x => mem_heroTreeNodeIdsOf nodes edges x

def wHeroNodes : List TalentNodeData :=
  ((List.range 12).map (fun i => ⟨i + 1, 0, 0, 0, 1, [], none⟩)) ++
  ((List.range 12).map (fun i => ⟨i + 20, 0, 0, 0, 1, [], none⟩)) ++
  [⟨40, 0, 0, 0, 1, [], none⟩, ⟨41, 0, 0, 0, 1, [], none⟩]

def wHeroEdges : List TalentEdgeData :=
  ((List.range 11).map (fun i => ⟨i + 1, i + 2, 0⟩)) ++
  ((List.range 11).map (fun i => ⟨i + 20, i + 21, 0⟩)) ++ [⟨40, 41, 0⟩]

def wHeroSel : List TalentNodeSelection :=
  [⟨12, true, some true, none, none, none, none⟩,
   ⟨13, true, some true, none, none, none, none⟩]

theorem hero_branch_analysis_witness :
    0 ∈ heroTreeComponentIdxs (treeComponents wHeroNodes wHeroEdges) ↔
      0 < (treeComponents wHeroNodes wHeroEdges).length ∧
      10 ≤ ((treeComponents wHeroNodes wHeroEdges).getD 0 []).length ∧
      ((treeComponents wHeroNodes wHeroEdges).getD 0 []).length ≤ 25 :=
  (hero_branch_analysis 62 wHeroNodes wHeroEdges wHeroSel
    (by decide) (by decide)).2.2.1 0
